import Mathlib

/-!
Verification development for the static gallery generator
(`tools/generate-gallery.mjs`).  JavaScript strings are embedded as
`List Char`; every function of the script that the claims touch is
translated below, definition by definition, and the claimed properties
are proved as theorems at the end of the file.
-/

/-- Embedded JavaScript string: a list of UTF-16-ish code points,
modelled as Lean characters. -/
abbrev Str := List Char

/-- Coerce a Lean string literal into the embedded string type. -/
def str (s : String) : Str := s.data

/-- The apostrophe character (code point 39). -/
def apos : Char := Char.ofNat 39

/-- The HTML entity for an apostrophe, `&#39;` as a character list. -/
def entApos : Str := ['&', '#', '3', '9', ';']

/-- Whitespace test used by the model of `String.prototype.trim`
(ASCII whitespace: space, tab, newline, carriage return, vertical tab,
form feed). -/
def isWs (c : Char) : Bool :=
  c = ' ' || c = '\t' || c = '\n' || c = '\r' || c = '\x0b' || c = '\x0c'

/-- Model of `String.prototype.trim`: strip whitespace from both ends. -/
def trim (s : Str) : Str :=
  ((s.dropWhile isWs).reverse.dropWhile isWs).reverse

/-- Model of `s.startsWith(p)` for an embedded string. -/
def startsWithS (p s : Str) : Bool := decide (s.take p.length = p)

/-- Model of `s.endsWith(p)` for an embedded string. -/
def endsWithS (p s : Str) : Bool := decide (s.reverse.take p.length = p.reverse)

/-- Model of `s.startsWith(c)` for a single character. -/
def hasHead (c : Char) (s : Str) : Bool :=
  match s with
  | [] => false
  | x :: _ => x = c

/-- Model of `s.endsWith(c)` for a single character. -/
def lastIs (c : Char) (s : Str) : Bool := s.getLast? = some c

/-- Model of `s.indexOf(c)` (for a one-character needle), returning
`none` for the JavaScript result `-1`. -/
def idxOfCh (c : Char) : Str → Option Nat
  | [] => none
  | x :: xs => if x = c then some 0 else (idxOfCh c xs).map (· + 1)

/-- Split on a single separator character, as `s.split("\n")` does. -/
def splitOnChar (c : Char) : Str → List Str
  | [] => [[]]
  | x :: xs =>
    if x = c then [] :: splitOnChar c xs
    else
      match splitOnChar c xs with
      | [] => [[x]]
      | l :: ls => (x :: l) :: ls

/-- Split on the regular expression `/\r?\n/`, as
`text.split(/\r?\n/)` does: a separator is `"\n"` or `"\r\n"`;
a lone `"\r"` is ordinary text. -/
def splitLines : Str → List Str
  | [] => [[]]
  | '\r' :: '\n' :: xs => [] :: splitLines xs
  | '\n' :: xs => [] :: splitLines xs
  | x :: xs =>
    match splitLines xs with
    | [] => [[x]]
    | l :: ls => (x :: l) :: ls

/-- Model of `Array.prototype.join(sep)`. -/
def joinSep (sep : Str) : List Str → Str
  | [] => []
  | [x] => x
  | x :: y :: ys => x ++ sep ++ joinSep sep (y :: ys)

/-- Digit test (ASCII `0`–`9`), used by the numeric-collation model. -/
def isDig (c : Char) : Bool := decide (48 ≤ c.toNat ∧ c.toNat ≤ 57)

/-- Three-way comparison on naturals. -/
def ocmp (a b : Nat) : Ordering :=
  if a < b then .lt else if a = b then .eq else .gt

/-- Three-way comparison on characters by code point. -/
def chCmp (a b : Char) : Ordering := ocmp a.toNat b.toNat

/-- Sequential composition of comparison results
(`Ordering.then`, written out). -/
def oThen (a b : Ordering) : Ordering :=
  match a with
  | .eq => b
  | o => o

/-- Lexicographic extension of a three-way comparison to lists. -/
def lexCmp (cmp : α → α → Ordering) : List α → List α → Ordering
  | [], [] => .eq
  | [], _ :: _ => .lt
  | _ :: _, [] => .gt
  | x :: xs, y :: ys => oThen (cmp x y) (lexCmp cmp xs ys)

/-- Model of `a.localeCompare(b)` with no options, as used on the
ISO-like album date strings: on such ASCII strings the default
collation coincides with code-point lexicographic order. -/
def lcCmp (a b : Str) : Ordering := lexCmp chCmp a b

/-- One token of the numeric-collation model: a maximal run of ASCII
digits, or a single non-digit character. -/
inductive Tok where
  | num (digits : Str)
  | ch (c : Char)
deriving DecidableEq

/-- Numeric value of a digit run. -/
def digitsVal (ds : Str) : Nat :=
  ds.foldl (fun acc c => acc * 10 + (c.toNat - 48)) 0

/-- Tokenize a string into maximal digit runs and single non-digit
characters, scanning from the left: a digit is merged into a digit run
that immediately follows it. -/
def tokenize : Str → List Tok
  | [] => []
  | c :: rest =>
    if isDig c then
      match tokenize rest with
      | Tok.num ds :: ts => Tok.num (c :: ds) :: ts
      | ts => Tok.num [c] :: ts
    else
      Tok.ch c :: tokenize rest

/-- Comparison of two tokens under numeric collation: digit runs are
compared by numeric value (ties by the digit strings themselves), a
digit run against a single character compares the run's first digit
with that character, and single characters compare by code point. -/
def tokCmp : Tok → Tok → Ordering
  | .num d1, .num d2 => oThen (ocmp (digitsVal d1) (digitsVal d2)) (lexCmp chCmp d1 d2)
  | .num d1, .ch c => chCmp (d1.headD '0') c
  | .ch c, .num d2 => chCmp c (d2.headD '0')
  | .ch a, .ch b => chCmp a b

/-- Model of `a.localeCompare(b, "en", { numeric: true })` on ASCII
path strings: maximal digit runs compare by numeric value, everything
else by code point. -/
def localeCompareNumeric (a b : Str) : Ordering :=
  lexCmp tokCmp (tokenize a) (tokenize b)

/-- Boolean "not greater" wrapper used to drive the stable sort on
file paths, mirroring `(a, b) => a.localeCompare(b, "en", { numeric: true })`. -/
def fileLe (a b : Str) : Bool :=
  match localeCompareNumeric a b with
  | .gt => false
  | _ => true

/-- One entry of the `albumInfo` array built in `main`:
the album directory and its (possibly empty) date string. -/
structure AlbumEntry where
  dir : Str
  date : Str
deriving DecidableEq

/-- Translation of the `albumInfo.sort` comparator of `main`:
date descending when both dates are non-empty (plain `localeCompare`
of the date strings, reversed), a dated album before an undated one,
and ties broken by the directory path under numeric collation. -/
def albumCmp (a b : AlbumEntry) : Ordering :=
  if a.date ≠ [] ∧ b.date ≠ [] then
    if a.date ≠ b.date then lcCmp b.date a.date
    else localeCompareNumeric a.dir b.dir
  else if a.date ≠ [] ∧ b.date = [] then .lt
  else if a.date = [] ∧ b.date ≠ [] then .gt
  else localeCompareNumeric a.dir b.dir

/-- Boolean "not greater" wrapper driving the stable sort of albums. -/
def albumLe (a b : AlbumEntry) : Bool :=
  match albumCmp a b with
  | .gt => false
  | _ => true

/-- Model of POSIX `path.basename`: the part after the last slash. -/
def basenameS (p : Str) : Str :=
  (p.reverse.takeWhile (fun c => c ≠ '/')).reverse

/-- Model of POSIX `path.dirname` for the slash-joined relative paths
the generator builds: the part before the last slash, or `"."` when
there is no slash. -/
def dirnameS (p : Str) : Str :=
  match p.reverse.dropWhile (fun c => c ≠ '/') with
  | [] => ['.']
  | _ :: rest => rest.reverse

/-- Model of `path.extname`: the suffix of the basename starting at its
last dot, empty when the basename has no dot or only a leading dot. -/
def extname (p : Str) : Str :=
  let b := basenameS p
  let afterRev := b.reverse.takeWhile (fun c => c ≠ '.')
  if afterRev.length = b.length then []
  else if afterRev.length + 1 = b.length then []
  else '.' :: afterRev.reverse

/-- Model of `path.parse(p).name`: the basename with its extension
removed. -/
def parseName (p : Str) : Str :=
  let b := basenameS p
  b.take (b.length - (extname p).length)

/-- Model of POSIX `path.join` for the plain segments the generator
joins (no empty or dot segments occur). -/
def pathJoin (a b : Str) : Str := a ++ '/' :: b

/-- Insertion of a key into a JavaScript object model (`obj[key] = val`):
an existing key is overwritten in place, a new key is appended. -/
def objSet : List (Str × α) → Str → α → List (Str × α)
  | [], k, v => [(k, v)]
  | (k0, v0) :: rest, k, v =>
    if k0 = k then (k0, v) :: rest else (k0, v0) :: objSet rest k v

/-- Property lookup on the JavaScript object model (`obj[key]`),
`none` standing for `undefined`. -/
def objGet : List (Str × α) → Str → Option α
  | [], _ => none
  | (k0, v0) :: rest, k => if k0 = k then some v0 else objGet rest k

/-- Value post-processing of `parseSimpleYaml` (the version of
`tools/generate-gallery.mjs`): strip a trailing `#` comment from an
unquoted value (truncate at the first marker, then trim), then remove
one layer of fully wrapping single or double quotes. -/
def procVal (val0 : Str) : Str :=
  let val1 :=
    if !(hasHead '"' val0 || hasHead apos val0) then
      match idxOfCh '#' val0 with
      | some h => trim (val0.take h)
      | none => val0
    else val0
  if (hasHead '"' val1 && lastIs '"' val1)
      || (hasHead apos val1 && lastIs apos val1) then
    (val1.drop 1).dropLast
  else val1

/-- Per-line body of `parseSimpleYaml`, continued: skip blank, comment
and colon-free lines, split at the first colon, trim both sides, and
post-process the value with `procVal`. -/
def procLine (line : Str) : Option (Str × Str) :=
  let s := trim line
  if s = [] then none
  else if hasHead '#' s then none
  else
    match idxOfCh ':' s with
    | none => none
    | some i => some (trim (s.take i), procVal (trim (s.drop (i + 1))))

/-- Translation of `parseSimpleYaml`: fold the per-line body over the
lines of the text, building the object with last-occurrence-wins
assignment. -/
def parseSimpleYaml (text : Str) : List (Str × Str) :=
  (splitLines text).foldl
    (fun obj line =>
      match procLine line with
      | none => obj
      | some (k, v) => objSet obj k v)
    []

/-- JavaScript value model for parsed JSON sidecar content
(flat album descriptors carry strings, integers, booleans or null). -/
inductive JVal where
  | jstr (s : Str)
  | jint (neg : Bool) (n : Nat)
  | jbool (b : Bool)
  | jnull
deriving DecidableEq

/-- Decimal digits of a natural number. -/
def natDigits (n : Nat) : Str := Nat.toDigits 10 n

/-- Model of JavaScript `toString()` on a parsed JSON value. -/
def jsToString : JVal → Str
  | .jstr s => s
  | .jint neg n => if neg ∧ n ≠ 0 then '-' :: natDigits n else natDigits n
  | .jbool true => str "true"
  | .jbool false => str "false"
  | .jnull => str "null"

/-- Model of JavaScript truthiness on a parsed JSON value. -/
def jsTruthy : JVal → Bool
  | .jstr s => !s.isEmpty
  | .jint _ n => n ≠ 0
  | .jbool b => b
  | .jnull => false

/-- JSON insignificant whitespace. -/
def isJWs (c : Char) : Bool :=
  c = ' ' || c = '\t' || c = '\n' || c = '\r'

/-- Body of a JSON string after its opening quote: plain characters and
the escapes `\"`, `\\`, `\/`, `\n`, `\t`, `\r`; returns the decoded
content and the remaining input past the closing quote. -/
def parseJString : Str → Option (Str × Str)
  | [] => none
  | '"' :: rest => some ([], rest)
  | '\\' :: e :: rest =>
    let dec : Option Char :=
      if e = '"' then some '"'
      else if e = '\\' then some '\\'
      else if e = '/' then some '/'
      else if e = 'n' then some '\n'
      else if e = 't' then some '\t'
      else if e = 'r' then some '\r'
      else none
    match dec with
    | none => none
    | some d => (parseJString rest).map (fun pr => (d :: pr.1, pr.2))
  | c :: rest => (parseJString rest).map (fun pr => (c :: pr.1, pr.2))

/-- A JSON integer literal (optional minus, no leading zeros, and no
fraction or exponent in the modelled subset). -/
def parseJInt (s : Str) : Option (JVal × Str) :=
  let neg := hasHead '-' s
  let body := if neg then s.drop 1 else s
  let ds := body.takeWhile isDig
  let rest := body.dropWhile isDig
  if ds = [] then none
  else if hasHead '0' ds ∧ ds.length ≠ 1 then none
  else if hasHead '.' rest ∨ hasHead 'e' rest ∨ hasHead 'E' rest then none
  else some (.jint neg (digitsVal ds), rest)

/-- One JSON value of the modelled flat subset: a string, an integer,
`true`, `false` or `null`. -/
def parseJVal (s : Str) : Option (JVal × Str) :=
  match s.dropWhile isJWs with
  | '"' :: rest => (parseJString rest).map (fun pr => (.jstr pr.1, pr.2))
  | 't' :: 'r' :: 'u' :: 'e' :: rest => some (.jbool true, rest)
  | 'f' :: 'a' :: 'l' :: 's' :: 'e' :: rest => some (.jbool false, rest)
  | 'n' :: 'u' :: 'l' :: 'l' :: rest => some (.jnull, rest)
  | t => parseJInt t

/-- Members of a JSON object after the opening brace, ending at the
closing brace; `fuel` bounds the recursion and is always sufficient at
the call site because every member consumes input. -/
def parseJMembers : Nat → Str → Option (List (Str × JVal) × Str)
  | 0, _ => none
  | fuel + 1, s =>
    match s.dropWhile isJWs with
    | '\x7d' :: rest => some ([], rest)
    | '"' :: rest =>
      match parseJString rest with
      | none => none
      | some (key, r1) =>
        match r1.dropWhile isJWs with
        | ':' :: r2 =>
          match parseJVal r2 with
          | none => none
          | some (v, r3) =>
            match r3.dropWhile isJWs with
            | ',' :: r4 =>
              (parseJMembers fuel r4).map (fun pr => ((key, v) :: pr.1, pr.2))
            | '\x7d' :: r4 => some ([(key, v)], r4)
            | _ => none
        | _ => none
    | _ => none

/-- Model of `JSON.parse` restricted to the flat objects album
descriptors use: a single object whose values are strings, integers,
booleans or null (no nesting); any other document is a parse error.
Duplicate keys follow JavaScript semantics: the last one wins. -/
def jsonParse (text : Str) : Option (List (Str × JVal)) :=
  match text.dropWhile isJWs with
  | '\x7b' :: rest =>
    match parseJMembers (rest.length + 1) rest with
    | none => none
    | some (members, r) =>
      if r.dropWhile isJWs = [] then
        some (members.foldl (fun obj kv => objSet obj kv.1 kv.2) [])
      else none
  | _ => none

/-- Album metadata record returned by `readAlbumMeta`. -/
structure AlbumMeta where
  title : Str
  date : Str
  desc : Str
deriving DecidableEq

/-- Field extraction for a line-oriented (YAML-like) sidecar:
`(data.x || "").toString().trim()` where the object maps keys to
strings. -/
def metaFromYaml (data : List (Str × Str)) : AlbumMeta :=
  { title := trim ((objGet data (str "title")).getD [])
    date := trim ((objGet data (str "date")).getD [])
    desc := trim ((objGet data (str "desc")).getD []) }

/-- Field extraction for a JSON sidecar:
`(data.x || "").toString().trim()` on JavaScript values, where a
missing or falsy field collapses to the empty string. -/
def jsonField (data : List (Str × JVal)) (k : Str) : Str :=
  match objGet data k with
  | none => []
  | some v => if jsTruthy v then trim (jsToString v) else []

/-- Record built from a parsed JSON sidecar. -/
def metaFromJson (data : List (Str × JVal)) : AlbumMeta :=
  { title := jsonField data (str "title")
    date := jsonField data (str "date")
    desc := jsonField data (str "desc") }

/-- One probe of `readAlbumMeta`: read the candidate file in the album
directory, parse it with `JSON.parse` when its name ends in `.json`
and with `parseSimpleYaml` otherwise, and build the metadata record;
`none` models the caught exception (missing file or JSON parse error). -/
def tryCand (fsRead : Str → Option Str) (albumDir name : Str) : Option AlbumMeta :=
  match fsRead (pathJoin albumDir name) with
  | none => none
  | some raw =>
    if endsWithS (str ".json") name then
      (jsonParse raw).map metaFromJson
    else
      some (metaFromYaml (parseSimpleYaml raw))

/-- The fixed ordered candidate list probed by `readAlbumMeta`. -/
def albumCandidates : List Str :=
  [str "album.yml", str "album.yaml", str "album.json"]

/-- The probing loop of `readAlbumMeta`: first usable candidate wins,
all failures fall through to the all-empty record. -/
def readAlbumMetaAux (fsRead : Str → Option Str) (albumDir : Str) :
    List Str → AlbumMeta
  | [] => { title := [], date := [], desc := [] }
  | n :: rest =>
    match tryCand fsRead albumDir n with
    | some m => m
    | none => readAlbumMetaAux fsRead albumDir rest

/-- Translation of `readAlbumMeta`: probe `album.yml`, `album.yaml`,
`album.json` in order against the file system `fsRead`. -/
def readAlbumMeta (fsRead : Str → Option Str) (albumDir : Str) : AlbumMeta :=
  readAlbumMetaAux fsRead albumDir albumCandidates

/-- Model of `s.replaceAll(c, rep)` for a one-character pattern. -/
def replaceAllCh (c : Char) (rep : Str) (s : Str) : Str :=
  s.flatMap (fun x => if x = c then rep else [x])

/-- Translation of `escapeHtml`: the five `replaceAll` calls applied in
the source order (`&`, `<`, `>`, `"`, apostrophe). -/
def escapeHtml (s : Str) : Str :=
  replaceAllCh apos entApos
    (replaceAllCh '"' (str "&quot;")
      (replaceAllCh '>' (str "&gt;")
        (replaceAllCh '<' (str "&lt;")
          (replaceAllCh '&' (str "&amp;") s))))

/-- Translation of `toSiteUrl`: backslashes become slashes, one leading
`source/` is removed, and a leading slash is prepended. -/
def toSiteUrl (filePath : Str) : Str :=
  let slashed := filePath.map (fun c => if c = '\\' then '/' else c)
  '/' :: (if startsWithS (str "source/") slashed then slashed.drop 7 else slashed)

/-- The image card template of `main` (the `figure`/`a`/`img` block),
with the site URL inserted verbatim in `href` and `src` and the
escaped alt text derived from the filename without extension. -/
def cardLine1 : Str := str "<figure class=\"gallery-card\">"

/-- Second line of the card: the anchor opening tag carrying the raw
site URL in its `href` attribute. -/
def cardLine2 (url : Str) : Str :=
  str "  <a class=\"gallery-link\" href=\"" ++ url ++
    str "\" target=\"_blank\" rel=\"noopener\">"

/-- Third line of the card: the image tag carrying the raw site URL in
`src` and the already-escaped alt text. -/
def cardLine3 (url alt : Str) : Str :=
  str "    <img src=\"" ++ url ++ str "\" alt=\"" ++ (alt ++ str "\">")

def cardLine4 : Str := str "  </a>"

def cardLine5 : Str := str "</figure>"

/-- The card template of `main`, line by line. -/
def cardHtml (p : Str) : Str :=
  let url := toSiteUrl p
  let alt := parseName p
  cardLine1 ++ '\n' ::
    (cardLine2 url ++ '\n' ::
      (cardLine3 url (escapeHtml alt) ++ '\n' ::
        (cardLine4 ++ '\n' :: cardLine5)))

/-- The per-card indentation step of `main`:
`html.split("\n").map(line => "      " + line).join("\n")`. -/
def indent6 (s : Str) : Str :=
  joinSep (str "\n") ((splitOnChar '\n' s).map (fun l => str "      " ++ l))

/-- One fully rendered, indented image card. -/
def cardBlock (p : Str) : Str := indent6 (cardHtml p)

/-- The `section` template of `main` before the final `trim`:
note the leading newline removed later by `trim`, and the date and
description spans that are present only for non-empty strings. -/
def secL1 : Str :=
  str "<section class=\"album\">\n  <details class=\"album-details\">\n    <summary class=\"album-header\">\n      <span class=\"album-arrow\" aria-hidden=\"true\"></span>\n      <span class=\"album-header-text\">\n        <span class=\"album-title\">"

def secL2 : Str := str "</span>\n        "

def secL3 : Str := str "\n        "

def secL4 : Str :=
  str "\n      </span>\n    </summary>\n    <div class=\"gallery-grid\">\n"

def secL5 : Str := str "\n    </div>\n  </details>\n</section>"

/-- The optional date span of the section template. -/
def dateSpanOf (d : Str) : Str :=
  str "<span class=\"album-date\">" ++ (escapeHtml d ++ str "</span>")

/-- The optional description span of the section template. -/
def descSpanOf (ds : Str) : Str :=
  str "<span class=\"album-desc\">" ++ (escapeHtml ds ++ str "</span>")

/-- The section template after its leading newline: title span, then
the date and description spans (present only when non-empty), then the
card grid. -/
def sectionTail (albumTitle albumDate albumDesc cards : Str) : Str :=
  secL1 ++
    (escapeHtml albumTitle ++
      (secL2 ++
        ((if albumDate ≠ [] then dateSpanOf albumDate else []) ++
          (secL3 ++
            ((if albumDesc ≠ [] then descSpanOf albumDesc else []) ++
              (secL4 ++ (cards ++ secL5)))))))

/-- The full template literal of the section, whose leading newline is
the explicit head character. -/
def sectionInner (albumTitle albumDate albumDesc cards : Str) : Str :=
  '\n' :: sectionTail albumTitle albumDate albumDesc cards

/-- Modelled from the spec: the album block with the date element
omitted entirely (the spec's "omitted entirely from output when
empty, not rendered as an empty tag"); compared against the code's
rendering below. -/
def sectionTailNoDate (albumTitle albumDesc cards : Str) : Str :=
  secL1 ++
    (escapeHtml albumTitle ++
      (secL2 ++
        (secL3 ++
          ((if albumDesc ≠ [] then descSpanOf albumDesc else []) ++
            (secL4 ++ (cards ++ secL5))))))

/-- Modelled from the spec: the album block with the description
element omitted entirely. -/
def sectionTailNoDesc (albumTitle albumDate cards : Str) : Str :=
  secL1 ++
    (escapeHtml albumTitle ++
      (secL2 ++
        ((if albumDate ≠ [] then dateSpanOf albumDate else []) ++
          (secL3 ++
            (secL4 ++ (cards ++ secL5))))))

/-- Modelled from the spec: trimmed rendering with no date element. -/
def sectionHtmlNoDate (albumTitle albumDesc cards : Str) : Str :=
  trim ('\n' :: sectionTailNoDate albumTitle albumDesc cards)

/-- Modelled from the spec: trimmed rendering with no description
element. -/
def sectionHtmlNoDesc (albumTitle albumDate cards : Str) : Str :=
  trim ('\n' :: sectionTailNoDesc albumTitle albumDate cards)

/-- The `section` template of `main`, trimmed as in the source. -/
def sectionHtml (albumTitle albumDate albumDesc cards : Str) : Str :=
  trim (sectionInner albumTitle albumDate albumDesc cards)

/-- Extension filter of `main`:
`files.filter(f => exts.has(path.extname(f).toLowerCase()))`. -/
def exts : List Str :=
  [str ".jpg", str ".jpeg", str ".png", str ".webp", str ".gif"]

/-- The lowercased extension of a path. -/
def extLower (f : Str) : Str := (extname f).map Char.toLower

/-- Keep exactly the files whose lowercased extension is a supported
image extension. -/
def filterImages (files : List Str) : List Str :=
  files.filter (fun f => decide (extLower f ∈ exts))

/-- The globally sorted image list of `main` (numeric collation). -/
def sortedFiles (files : List Str) : List Str :=
  (filterImages files).mergeSort fileLe

/-- One step of the `albums` map construction: append the image to its
directory's bucket, creating the bucket at the end on first sight. -/
def addToGroup : List (Str × List Str) → Str → Str → List (Str × List Str)
  | [], d, f => [(d, [f])]
  | (k, v) :: rest, d, f =>
    if k = d then (k, v ++ [f]) :: rest
    else (k, v) :: addToGroup rest d f

/-- The `albums` map of `main`: buckets of image paths keyed by their
immediate directory, in first-encounter order. -/
def groupByDir (files : List Str) : List (Str × List Str) :=
  files.foldl (fun m f => addToGroup m (dirnameS f) f) []

/-- The `albums` map built from the filtered, sorted file list. -/
def albumsMap (files : List Str) : List (Str × List Str) :=
  groupByDir (sortedFiles files)

/-- `Array.from(albums.keys())`. -/
def albumDirs (files : List Str) : List Str :=
  (albumsMap files).map (fun kv => kv.1)

/-- `albums.get(dir)`, the bucket of one directory (empty fallback is
never hit by `main`, which only looks up existing keys). -/
def getGroup (m : List (Str × List Str)) (d : Str) : List Str :=
  match objGet m d with
  | some g => g
  | none => []

/-- The `albumInfo` element for one directory:
`{ dir, date: meta.date || "" }`. -/
def albumEntryOf (fsRead : Str → Option Str) (dir : Str) : AlbumEntry :=
  { dir := dir, date := (readAlbumMeta fsRead dir).date }

/-- The `albumInfo` array gathered by `Promise.all` (element order is
the order of `albumDirs`, independent of I/O completion). -/
def albumEntries (fsRead : Str → Option Str) (files : List Str) : List AlbumEntry :=
  (albumDirs files).map (albumEntryOf fsRead)

/-- The album directories after the date sort of `main`. -/
def sortedAlbumDirsOf (entries : List AlbumEntry) : List Str :=
  (entries.mergeSort albumLe).map (fun x => x.dir)

/-- The fully rendered section of one album directory. -/
def buildSection (fsRead : Str → Option Str) (m : List (Str × List Str))
    (albumDir : Str) : Str :=
  let albumMeta := readAlbumMeta fsRead albumDir
  let albumTitle := if albumMeta.title ≠ [] then albumMeta.title else basenameS albumDir
  let albumDate := albumMeta.date
  let albumDesc := albumMeta.desc
  let imgs := (getGroup m albumDir).mergeSort fileLe
  let cards := joinSep (str "\n") (imgs.map cardBlock)
  sectionHtml albumTitle albumDate albumDesc cards

/-- The fixed text of the output document before the generation date. -/
def pageBefore : Str := str "---\ntitle: 相册\ndate: "

/-- The text of the output document after the generation date, given
the already-rendered sections. -/
def pageAfterOf (sections : List Str) : Str :=
  str "\nlayout: page\n---\n\n<div class=\"gallery-page\">\n" ++
    joinSep (str "\n\n") sections ++
    str "\n</div>\n"

/-- The whole output document of `main`, parameterised by the album
entries gathered from the concurrent metadata reads. -/
def pageWithEntries (fsRead : Str → Option Str) (files : List Str)
    (today : Str) (entries : List AlbumEntry) : Str :=
  pageBefore ++ today ++
    pageAfterOf ((sortedAlbumDirsOf entries).map (buildSection fsRead (albumsMap files)))

/-- The whole output document of `main` as written to
`source/gallery/index.html`, as a function of the discovered file
list, the file-system contents and the generation date. -/
def pageOf (fsRead : Str → Option Str) (files : List Str) (today : Str) : Str :=
  pageWithEntries fsRead files today (albumEntries fsRead files)

/-- Event-loop model of the `Promise.all` in `main`: the metadata reads
complete in the order given by `order`, each writing its result into
its own slot of the result array. -/
def runSchedule (f : Str → AlbumEntry) (dirs : List Str) (order : List Nat) :
    List (Option AlbumEntry) :=
  order.foldl (fun results i => results.set i (some (f (dirs.getD i []))))
    (List.replicate dirs.length none)

/-- The entries gathered from a completion schedule (settled slots, in
array order). -/
def entriesOfSchedule (fsRead : Str → Option Str) (files : List Str)
    (order : List Nat) : List AlbumEntry :=
  (runSchedule (albumEntryOf fsRead) (albumDirs files) order).filterMap id

/-- The output document when the concurrent metadata reads complete in
the order `order`. -/
def pageOfSched (fsRead : Str → Option Str) (files : List Str)
    (today : Str) (order : List Nat) : Str :=
  pageWithEntries fsRead files today (entriesOfSchedule fsRead files order)

/-- Character-wise description of the escaper: each of the five
special characters maps to its entity, everything else to itself. -/
def escChar (c : Char) : Str :=
  if c = '&' then str "&amp;"
  else if c = '<' then str "&lt;"
  else if c = '>' then str "&gt;"
  else if c = '"' then str "&quot;"
  else if c = apos then entApos
  else [c]

/-- Occurrence of `p` as a contiguous substring of `s`. -/
def occursIn (p s : Str) : Prop := ∃ u v, s = u ++ (p ++ v)

/-! ### Comparator laws -/

/-- Well-formedness of a collation token: digit runs are non-empty and
all digits, single characters are non-digits. -/
def validTok : Tok → Prop
  | .num ds => ds ≠ [] ∧ ∀ c ∈ ds, isDig c = true
  | .ch c => isDig c = false

/-- Date-key comparison hidden inside the album comparator: non-empty
dates compare in reverse, a date beats no date, two empty dates tie. -/
def dateCmp (d1 d2 : Str) : Ordering :=
  if d1 ≠ [] ∧ d2 ≠ [] then lcCmp d2 d1
  else if d1 ≠ [] then .lt
  else if d2 ≠ [] then .gt
  else .eq


/-- Characters with equal code points are equal. -/
theorem chNat_inj {a b : Char} (h : a.toNat = b.toNat) : a = b :=
  Char.eq_of_val_eq (UInt32.toNat.inj h)

theorem ocmp_eq_iff {a b : Nat} : ocmp a b = .eq ↔ a = b := by
  unfold ocmp
  split
  · constructor
    · intro h
      cases h
    · omega
  · split
    · simp_all
    · constructor
      · intro h
        cases h
      · omega

theorem ocmp_lt_iff {a b : Nat} : ocmp a b = .lt ↔ a < b := by
  unfold ocmp
  split
  · simp_all
  · split
    · constructor
      · intro h
        cases h
      · omega
    · constructor
      · intro h
        cases h
      · omega

theorem ocmp_gt_iff {a b : Nat} : ocmp a b = .gt ↔ b < a := by
  unfold ocmp
  split
  · constructor
    · intro h
      cases h
    · omega
  · split
    · constructor
      · intro h
        cases h
      · omega
    · constructor
      · intro _
        omega
      · intro _
        rfl

theorem ocmp_swap (a b : Nat) : (ocmp a b).swap = ocmp b a := by
  rcases Nat.lt_trichotomy a b with h | h | h
  · rw [ocmp_lt_iff.mpr h, show ocmp b a = .gt from ocmp_gt_iff.mpr h]
    rfl
  · subst h
    rw [ocmp_eq_iff.mpr rfl]
    rfl
  · rw [ocmp_gt_iff.mpr h, show ocmp b a = .lt from ocmp_lt_iff.mpr h]
    rfl

theorem chCmp_eq_iff {a b : Char} : chCmp a b = .eq ↔ a = b := by
  unfold chCmp
  rw [ocmp_eq_iff]
  exact ⟨fun h => chNat_inj h, fun h => by rw [h]⟩

theorem chCmp_lt_iff {a b : Char} : chCmp a b = .lt ↔ a.toNat < b.toNat := by
  unfold chCmp
  exact ocmp_lt_iff

theorem chCmp_swap (a b : Char) : (chCmp a b).swap = chCmp b a := ocmp_swap _ _

theorem chCmp_lt_trans {a b c : Char} (h1 : chCmp a b = .lt) (h2 : chCmp b c = .lt) :
    chCmp a c = .lt :=
  chCmp_lt_iff.mpr (Nat.lt_trans (chCmp_lt_iff.mp h1) (chCmp_lt_iff.mp h2))

theorem chCmp_refl (a : Char) : chCmp a a = .eq := chCmp_eq_iff.mpr rfl

theorem oThen_swap (a b : Ordering) : (oThen a b).swap = oThen a.swap b.swap := by
  cases a <;> rfl

theorem oThen_eq_eq {a b : Ordering} : oThen a b = .eq ↔ a = .eq ∧ b = .eq := by
  cases a <;> simp [oThen]

theorem oThen_eq_lt {a b : Ordering} :
    oThen a b = .lt ↔ a = .lt ∨ (a = .eq ∧ b = .lt) := by
  cases a <;> simp [oThen]

/-- Swap law for the lexicographic extension, from a global swap law of
the element comparator. -/
theorem lexCmp_swap (cmp : α → α → Ordering)
    (h : ∀ x y, (cmp x y).swap = cmp y x) :
    ∀ l1 l2, (lexCmp cmp l1 l2).swap = lexCmp cmp l2 l1
  | [], [] => rfl
  | [], _ :: _ => rfl
  | _ :: _, [] => rfl
  | x :: xs, y :: ys => by
    simp only [lexCmp, oThen_swap, h x y, lexCmp_swap cmp h xs ys]

/-- Reflexivity of the lexicographic extension. -/
theorem lexCmp_refl (cmp : α → α → Ordering) (h : ∀ x, cmp x x = .eq) :
    ∀ l, lexCmp cmp l l = .eq
  | [] => rfl
  | x :: xs => by
    simp only [lexCmp, h x, oThen, lexCmp_refl cmp h xs]

/-- Equality extraction for the lexicographic extension, relative to
the members actually compared. -/
theorem lexCmp_eq_of (cmp : α → α → Ordering) :
    ∀ l1 l2, (h : ∀ x ∈ l1, ∀ y ∈ l2, cmp x y = .eq → x = y) →
      lexCmp cmp l1 l2 = .eq → l1 = l2
  | [], [], _, _ => rfl
  | [], _ :: _, _, hc => by cases hc
  | _ :: _, [], _, hc => by cases hc
  | x :: xs, y :: ys, h, hc => by
    simp only [lexCmp] at hc
    rcases oThen_eq_eq.mp hc with ⟨h1, h2⟩
    have hxy : x = y := h x (by simp) y (by simp) h1
    have hrest : xs = ys :=
      lexCmp_eq_of cmp xs ys
        (fun a ha b hb => h a (by simp [ha]) b (by simp [hb])) h2
    rw [hxy, hrest]

/-- Transitivity of strict lexicographic order, relative to the members
actually compared. -/
theorem lexCmp_lt_trans (cmp : α → α → Ordering) :
    ∀ l1 l2 l3,
      (hlt : ∀ x ∈ l1, ∀ y ∈ l2, ∀ z ∈ l3,
        cmp x y = .lt → cmp y z = .lt → cmp x z = .lt) →
      (h12 : ∀ x ∈ l1, ∀ y ∈ l2, cmp x y = .eq → x = y) →
      (h23 : ∀ y ∈ l2, ∀ z ∈ l3, cmp y z = .eq → y = z) →
      lexCmp cmp l1 l2 = .lt → lexCmp cmp l2 l3 = .lt → lexCmp cmp l1 l3 = .lt
  | [], l2, l3, _, _, _, hab, hbc => by
    cases l3 with
    | nil =>
      exfalso
      cases l2 with
      | nil => cases hab
      | cons y ys => cases hbc
    | cons z zs => rfl
  | _ :: _, [], _, _, _, _, hab, _ => by cases hab
  | _ :: _, _ :: _, [], _, _, _, _, hbc => by cases hbc
  | x :: xs, y :: ys, z :: zs, hlt, h12, h23, hab, hbc => by
    simp only [lexCmp] at hab hbc ⊢
    rcases oThen_eq_lt.mp hab with h1 | ⟨h1, h1r⟩ <;>
      rcases oThen_eq_lt.mp hbc with h2 | ⟨h2, h2r⟩
    · exact oThen_eq_lt.mpr (Or.inl
        (hlt x (by simp) y (by simp) z (by simp) h1 h2))
    · have : y = z := h23 y (by simp) z (by simp) h2
      subst this
      exact oThen_eq_lt.mpr (Or.inl h1)
    · have : x = y := h12 x (by simp) y (by simp) h1
      subst this
      exact oThen_eq_lt.mpr (Or.inl h2)
    · have hxy : x = y := h12 x (by simp) y (by simp) h1
      subst hxy
      have hrest := lexCmp_lt_trans cmp xs ys zs
        (fun a ha b hb c hc => hlt a (by simp [ha]) b (by simp [hb]) c (by simp [hc]))
        (fun a ha b hb => h12 a (by simp [ha]) b (by simp [hb]))
        (fun a ha b hb => h23 a (by simp [ha]) b (by simp [hb]))
        h1r h2r
      exact oThen_eq_lt.mpr (Or.inr ⟨h2, hrest⟩)

/-- Every token produced by `tokenize` is well formed. -/
theorem tokenize_valid : ∀ s : Str, ∀ t ∈ tokenize s, validTok t := by
  intro s
  induction s with
  | nil => simp [tokenize]
  | cons c rest ih =>
    intro t ht
    by_cases h : isDig c = true
    · rw [tokenize, if_pos h] at ht
      cases hrest : tokenize rest with
      | nil =>
        rw [hrest] at ht
        simp only [List.mem_cons, List.not_mem_nil, or_false] at ht
        subst ht
        exact ⟨by simp, fun x hx => by
          rcases List.mem_cons.mp hx with rfl | hx
          · exact h
          · cases hx⟩
      | cons t0 ts =>
        rw [hrest] at ht
        cases t0 with
        | num ds =>
          rcases List.mem_cons.mp ht with rfl | ht
          · have hv : validTok (Tok.num ds) := ih (Tok.num ds) (by rw [hrest]; simp)
            exact ⟨by simp, fun x hx => by
              rcases List.mem_cons.mp hx with rfl | hx
              · exact h
              · exact hv.2 x hx⟩
          · exact ih t (by rw [hrest]; simp [ht])
        | ch c2 =>
          rcases List.mem_cons.mp ht with rfl | ht
          · exact ⟨by simp, fun x hx => by
              rcases List.mem_cons.mp hx with rfl | hx
              · exact h
              · cases hx⟩
          · exact ih t (by rw [hrest]; exact ht)
    · rw [tokenize, if_neg h] at ht
      rcases List.mem_cons.mp ht with rfl | ht
      · simpa [validTok] using h
      · exact ih t ht

/-- Digit characters occupy code points 48 through 57. -/
theorem isDig_bounds {c : Char} (h : isDig c = true) :
    48 ≤ c.toNat ∧ c.toNat ≤ 57 := by
  simpa [isDig] using h

/-- Non-digit characters lie outside the 48–57 band. -/
theorem isDig_out {c : Char} (h : isDig c = false) :
    c.toNat < 48 ∨ 57 < c.toNat := by
  by_contra hc
  push_neg at hc
  have : isDig c = true := by simp [isDig]; omega
  simp [this] at h

/-- The leading digit of a well-formed digit run. -/
theorem validNum_head {ds : Str} (h : ds ≠ [] ∧ ∀ c ∈ ds, isDig c = true) :
    isDig (ds.headD '0') = true := by
  cases ds with
  | nil => exact absurd rfl h.1
  | cons x xs => exact h.2 x (by simp)

theorem tokCmp_swap (t u : Tok) : (tokCmp t u).swap = tokCmp u t := by
  cases t <;> cases u <;>
    simp [tokCmp, oThen_swap, ocmp_swap, chCmp_swap, lexCmp_swap chCmp chCmp_swap]

theorem tokCmp_refl (t : Tok) : tokCmp t t = .eq := by
  cases t with
  | num ds =>
    simp [tokCmp, ocmp_eq_iff.mpr rfl, oThen, lexCmp_refl chCmp chCmp_refl ds]
  | ch c => simp [tokCmp, chCmp_refl]

theorem tokCmp_eq_of {t u : Tok} (hv : validTok t) (hu : validTok u)
    (h : tokCmp t u = .eq) : t = u := by
  cases t with
  | num d1 =>
    cases u with
    | num d2 =>
      simp only [tokCmp] at h
      rcases oThen_eq_eq.mp h with ⟨_, h2⟩
      have : d1 = d2 :=
        lexCmp_eq_of chCmp d1 d2 (fun x _ y _ hxy => chCmp_eq_iff.mp hxy) h2
      rw [this]
    | ch c =>
      exfalso
      simp only [tokCmp] at h
      have hh := chCmp_eq_iff.mp h
      have hd := validNum_head hv
      have hu2 : isDig c = false := hu
      rw [hh] at hd
      rw [hd] at hu2
      cases hu2
  | ch c =>
    cases u with
    | num d2 =>
      exfalso
      simp only [tokCmp] at h
      have hh := chCmp_eq_iff.mp h
      have hd := validNum_head hu
      have hv2 : isDig c = false := hv
      rw [← hh] at hd
      rw [hd] at hv2
      cases hv2
    | ch c2 =>
      rw [chCmp_eq_iff.mp h]

theorem tokCmp_lt_trans {x y z : Tok}
    (hx : validTok x) (hy : validTok y) (hz : validTok z)
    (h1 : tokCmp x y = .lt) (h2 : tokCmp y z = .lt) : tokCmp x z = .lt := by
  cases x with
  | num d1 =>
    cases y with
    | num d2 =>
      cases z with
      | num d3 =>
        simp only [tokCmp] at h1 h2 ⊢
        rcases oThen_eq_lt.mp h1 with ha | ⟨ha, har⟩ <;>
          rcases oThen_eq_lt.mp h2 with hb | ⟨hb, hbr⟩
        · exact oThen_eq_lt.mpr (Or.inl (ocmp_lt_iff.mpr
            (Nat.lt_trans (ocmp_lt_iff.mp ha) (ocmp_lt_iff.mp hb))))
        · have := ocmp_eq_iff.mp hb
          exact oThen_eq_lt.mpr (Or.inl (ocmp_lt_iff.mpr (this ▸ ocmp_lt_iff.mp ha)))
        · have := ocmp_eq_iff.mp ha
          exact oThen_eq_lt.mpr (Or.inl (ocmp_lt_iff.mpr (this ▸ ocmp_lt_iff.mp hb)))
        · refine oThen_eq_lt.mpr (Or.inr ⟨?_, ?_⟩)
          · rw [ocmp_eq_iff.mp ha, ocmp_eq_iff.mp hb] at *
            exact ocmp_eq_iff.mpr rfl
          · exact lexCmp_lt_trans chCmp d1 d2 d3
              (fun a _ b _ c _ => chCmp_lt_trans)
              (fun a _ b _ hab => chCmp_eq_iff.mp hab)
              (fun a _ b _ hab => chCmp_eq_iff.mp hab) har hbr
      | ch c =>
        simp only [tokCmp] at h1 h2 ⊢
        have hb1 := isDig_bounds (validNum_head hx)
        have hb2 := isDig_bounds (validNum_head hy)
        have hc := isDig_out hz
        have h2n := chCmp_lt_iff.mp h2
        exact chCmp_lt_iff.mpr (by omega)
    | ch c =>
      cases z with
      | num d3 =>
        exfalso
        simp only [tokCmp] at h1 h2
        have hb1 := isDig_bounds (validNum_head hx)
        have hb3 := isDig_bounds (validNum_head hz)
        have hc := isDig_out hy
        have h1n := chCmp_lt_iff.mp h1
        have h2n := chCmp_lt_iff.mp h2
        omega
      | ch c2 =>
        simp only [tokCmp] at h1 h2 ⊢
        exact chCmp_lt_trans h1 h2
  | ch c =>
    cases y with
    | num d2 =>
      cases z with
      | num d3 =>
        simp only [tokCmp] at h1 h2 ⊢
        have hb2 := isDig_bounds (validNum_head hy)
        have hb3 := isDig_bounds (validNum_head hz)
        have hc := isDig_out hx
        have h1n := chCmp_lt_iff.mp h1
        exact chCmp_lt_iff.mpr (by omega)
      | ch c2 =>
        simp only [tokCmp] at h1 h2 ⊢
        exact chCmp_lt_trans h1 h2
    | ch c1 =>
      cases z with
      | num d3 =>
        simp only [tokCmp] at h1 h2 ⊢
        exact chCmp_lt_trans h1 h2
      | ch c2 =>
        simp only [tokCmp] at h1 h2 ⊢
        exact chCmp_lt_trans h1 h2

theorem numCmp_swap (a b : Str) :
    (localeCompareNumeric a b).swap = localeCompareNumeric b a :=
  lexCmp_swap tokCmp tokCmp_swap _ _

theorem numCmp_refl (a : Str) : localeCompareNumeric a a = .eq :=
  lexCmp_refl tokCmp tokCmp_refl _

theorem numCmp_eq_toks {a b : Str} (h : localeCompareNumeric a b = .eq) :
    tokenize a = tokenize b :=
  lexCmp_eq_of tokCmp _ _
    (fun x hx y hy => tokCmp_eq_of (tokenize_valid a x hx) (tokenize_valid b y hy)) h

theorem numCmp_lt_trans {a b c : Str}
    (h1 : localeCompareNumeric a b = .lt) (h2 : localeCompareNumeric b c = .lt) :
    localeCompareNumeric a c = .lt :=
  lexCmp_lt_trans tokCmp _ _ _
    (fun x hx y hy z hz => tokCmp_lt_trans (tokenize_valid a x hx)
      (tokenize_valid b y hy) (tokenize_valid c z hz))
    (fun x hx y hy => tokCmp_eq_of (tokenize_valid a x hx) (tokenize_valid b y hy))
    (fun y hy z hz => tokCmp_eq_of (tokenize_valid b y hy) (tokenize_valid c z hz))
    h1 h2

theorem fileLe_iff {a b : Str} :
    fileLe a b = true ↔ localeCompareNumeric a b ≠ .gt := by
  unfold fileLe
  cases localeCompareNumeric a b <;> simp

/-- Totality of the file order (needed for `mergeSort` sortedness). -/
theorem fileLe_total (a b : Str) : (fileLe a b || fileLe b a) = true := by
  rcases h : localeCompareNumeric a b with _ | _ | _
  · have hl : fileLe a b = true := by
      unfold fileLe
      rw [h]
    simp [hl]
  · have hl : fileLe a b = true := by
      unfold fileLe
      rw [h]
    simp [hl]
  · have hba : localeCompareNumeric b a = .lt := by
      have hs := numCmp_swap a b
      rw [h] at hs
      exact hs.symm
    have hl : fileLe b a = true := by
      unfold fileLe
      rw [hba]
    simp [hl]

/-- Transitivity of the file order. -/
theorem fileLe_trans (a b c : Str)
    (h1 : fileLe a b = true) (h2 : fileLe b c = true) : fileLe a c = true := by
  have g1 := fileLe_iff.mp h1
  have g2 := fileLe_iff.mp h2
  rcases hab : localeCompareNumeric a b with _ | _ | _
  · rcases hbc : localeCompareNumeric b c with _ | _ | _
    · exact fileLe_iff.mpr (by simp [numCmp_lt_trans hab hbc])
    · have htk := numCmp_eq_toks hbc
      have : localeCompareNumeric a c = .lt := by
        unfold localeCompareNumeric at hab ⊢
        rw [← htk]
        exact hab
      exact fileLe_iff.mpr (by simp [this])
    · exact absurd hbc g2
  · have htk := numCmp_eq_toks hab
    have : localeCompareNumeric a c = localeCompareNumeric b c := by
      unfold localeCompareNumeric
      rw [htk]
    rw [fileLe_iff, this]
    exact g2
  · exact absurd hab g1

theorem lcCmp_swap (a b : Str) : (lcCmp a b).swap = lcCmp b a :=
  lexCmp_swap chCmp chCmp_swap _ _

theorem lcCmp_refl (a : Str) : lcCmp a a = .eq :=
  lexCmp_refl chCmp chCmp_refl _

theorem lcCmp_eq_of {a b : Str} (h : lcCmp a b = .eq) : a = b :=
  lexCmp_eq_of chCmp _ _ (fun x _ y _ hxy => chCmp_eq_iff.mp hxy) h

theorem lcCmp_lt_trans {a b c : Str} (h1 : lcCmp a b = .lt) (h2 : lcCmp b c = .lt) :
    lcCmp a c = .lt :=
  lexCmp_lt_trans chCmp _ _ _ (fun x _ y _ z _ => chCmp_lt_trans)
    (fun x _ y _ hxy => chCmp_eq_iff.mp hxy)
    (fun x _ y _ hxy => chCmp_eq_iff.mp hxy) h1 h2

/-- The album comparator is the lexicographic combination of the date
key and the numeric directory comparison. -/
theorem albumCmp_thenForm (a b : AlbumEntry) :
    albumCmp a b = oThen (dateCmp a.date b.date) (localeCompareNumeric a.dir b.dir) := by
  unfold albumCmp dateCmp
  by_cases ha : a.date = [] <;> by_cases hb : b.date = []
  · simp [ha, hb, oThen]
  · simp [ha, hb, oThen]
  · simp [ha, hb, oThen]
  · by_cases hne : a.date = b.date
    · simp only [ha, hb, hne, ne_eq, not_false_iff, and_self, if_true,
        not_true, if_false, lcCmp_refl]
      rfl
    · simp only [ha, hb, ne_eq, not_false_iff, and_self, if_true]
      rw [if_pos hne]
      rcases h : lcCmp b.date a.date with _ | _ | _
      · rfl
      · exact absurd (lcCmp_eq_of h).symm hne
      · rfl

theorem dateCmp_swap (a b : Str) : (dateCmp a b).swap = dateCmp b a := by
  unfold dateCmp
  by_cases hab : a ≠ [] ∧ b ≠ []
  · rw [if_pos hab, if_pos ⟨hab.2, hab.1⟩, lcCmp_swap]
  · by_cases ha : a ≠ []
    · have hb : b = [] := by
        by_contra hb
        exact hab ⟨ha, hb⟩
      simp [hab, ha, hb, Ordering.swap]
    · push_neg at ha
      by_cases hb : b ≠ []
      · simp [hab, ha, hb, Ordering.swap]
      · push_neg at hb
        simp [ha, hb, Ordering.swap]

theorem dateCmp_eq_of {a b : Str} (h : dateCmp a b = .eq) : a = b := by
  unfold dateCmp at h
  by_cases hab : a ≠ [] ∧ b ≠ []
  · rw [if_pos hab] at h
    exact (lcCmp_eq_of h).symm
  · by_cases ha : a ≠ []
    · have hb : b = [] := by
        by_contra hb
        exact hab ⟨ha, hb⟩
      rw [if_neg hab, if_pos ha] at h
      cases h
    · push_neg at ha
      by_cases hb : b ≠ []
      · rw [if_neg hab, if_neg (by simp [ha]), if_pos hb] at h
        cases h
      · push_neg at hb
        rw [ha, hb]

theorem dateCmp_refl (a : Str) : dateCmp a a = .eq := by
  unfold dateCmp
  by_cases ha : a = []
  · simp [ha]
  · simp [ha, lcCmp_refl]

theorem dateCmp_lt_trans {a b c : Str}
    (h1 : dateCmp a b = .lt) (h2 : dateCmp b c = .lt) : dateCmp a c = .lt := by
  unfold dateCmp at h1 h2 ⊢
  by_cases ha : a = [] <;> by_cases hb : b = [] <;> by_cases hc : c = [] <;>
    simp [ha, hb, hc] at h1 h2 ⊢
  · exact lcCmp_lt_trans h2 h1

theorem albumCmp_swap (a b : AlbumEntry) : (albumCmp a b).swap = albumCmp b a := by
  rw [albumCmp_thenForm, albumCmp_thenForm, oThen_swap, dateCmp_swap, numCmp_swap]

theorem albumLe_iff {a b : AlbumEntry} :
    albumLe a b = true ↔ albumCmp a b ≠ .gt := by
  unfold albumLe
  cases albumCmp a b <;> simp

/-- Totality of the album order. -/
theorem albumLe_total (a b : AlbumEntry) : (albumLe a b || albumLe b a) = true := by
  rcases h : albumCmp a b with _ | _ | _
  · have hl : albumLe a b = true := by
      unfold albumLe
      rw [h]
    simp [hl]
  · have hl : albumLe a b = true := by
      unfold albumLe
      rw [h]
    simp [hl]
  · have hba : albumCmp b a = .lt := by
      have hs := albumCmp_swap a b
      rw [h] at hs
      exact hs.symm
    have hl : albumLe b a = true := by
      unfold albumLe
      rw [hba]
    simp [hl]

/-- When two entries compare equal, they have the same date and
numerically indistinguishable directories, so they compare alike
against any third entry. -/
theorem albumCmp_eq_congr {a b : AlbumEntry} (h : albumCmp a b = .eq) :
    ∀ c, albumCmp a c = albumCmp b c := by
  intro c
  rw [albumCmp_thenForm] at h
  rcases oThen_eq_eq.mp h with ⟨hd, hn⟩
  have hdate : a.date = b.date := dateCmp_eq_of hd
  have htoks : tokenize a.dir = tokenize b.dir := numCmp_eq_toks hn
  rw [albumCmp_thenForm, albumCmp_thenForm, hdate]
  have : localeCompareNumeric a.dir c.dir = localeCompareNumeric b.dir c.dir := by
    unfold localeCompareNumeric
    rw [htoks]
  rw [this]

/-- Strict transitivity of the album comparator. -/
theorem albumCmp_lt_trans {a b c : AlbumEntry}
    (h1 : albumCmp a b = .lt) (h2 : albumCmp b c = .lt) : albumCmp a c = .lt := by
  rw [albumCmp_thenForm] at h1 h2 ⊢
  rcases oThen_eq_lt.mp h1 with hd1 | ⟨hd1, hn1⟩ <;>
    rcases oThen_eq_lt.mp h2 with hd2 | ⟨hd2, hn2⟩
  · exact oThen_eq_lt.mpr (Or.inl (dateCmp_lt_trans hd1 hd2))
  · have : b.date = c.date := dateCmp_eq_of hd2
    rw [← this]
    exact oThen_eq_lt.mpr (Or.inl hd1)
  · have : a.date = b.date := dateCmp_eq_of hd1
    rw [this]
    exact oThen_eq_lt.mpr (Or.inl hd2)
  · have hab : a.date = b.date := dateCmp_eq_of hd1
    have hbc : b.date = c.date := dateCmp_eq_of hd2
    refine oThen_eq_lt.mpr (Or.inr ⟨?_, numCmp_lt_trans hn1 hn2⟩)
    rw [hab, hbc]
    exact dateCmp_refl _

/-- Transitivity of the album order. -/
theorem albumLe_trans (a b c : AlbumEntry)
    (h1 : albumLe a b = true) (h2 : albumLe b c = true) : albumLe a c = true := by
  have g1 := albumLe_iff.mp h1
  have g2 := albumLe_iff.mp h2
  rcases hab : albumCmp a b with _ | _ | _
  · rcases hbc : albumCmp b c with _ | _ | _
    · exact albumLe_iff.mpr (by simp [albumCmp_lt_trans hab hbc])
    · have hsw : albumCmp c b = .eq := by
        have hs := albumCmp_swap b c
        rw [hbc] at hs
        exact hs.symm
      have hca : albumCmp c a = albumCmp b a := albumCmp_eq_congr hsw a
      have : albumCmp a c = albumCmp a b := by
        rw [← albumCmp_swap c a, hca, albumCmp_swap b a]
      rw [albumLe_iff, this, hab]
      simp
    · exact absurd hbc g2
  · have := albumCmp_eq_congr hab c
    rw [albumLe_iff, this]
    exact g2
  · exact absurd hab g1

/-- The sorted album list is pairwise ordered by `albumLe`. -/
theorem albums_pairwise (entries : List AlbumEntry) :
    List.Pairwise (fun x y => albumLe x y = true) (entries.mergeSort albumLe) :=
  List.sorted_mergeSort albumLe_trans albumLe_total entries

/-- The sorted image list is pairwise ordered by `fileLe`. -/
theorem files_pairwise (files : List Str) :
    List.Pairwise (fun x y => fileLe x y = true) (files.mergeSort fileLe) :=
  List.sorted_mergeSort fileLe_trans fileLe_total files

/-- A sorted permutation is unique once the order is antisymmetric on
the target's members: used to pin down concrete `mergeSort` results. -/
theorem sorted_perm_unique (le : α → α → Bool) :
    ∀ (l1 l2 : List α), l1.Perm l2 →
      List.Pairwise (fun a b => le a b = true) l1 →
      List.Pairwise (fun a b => le a b = true) l2 →
      (∀ x ∈ l2, ∀ y ∈ l2, le x y = true → le y x = true → x = y) →
      l1 = l2
  | [], l2, hp, _, _, _ => (hp.nil_eq).symm.symm
  | x :: xs, [], hp, _, _, _ => absurd (hp.symm.nil_eq) (by simp)
  | x :: xs, y :: ys, hp, h1, h2, hanti => by
    have hx2 : x ∈ y :: ys := hp.mem_iff.mp (by simp)
    by_cases hxy : x = y
    · subst hxy
      have hp2 := hp.cons_inv
      have := sorted_perm_unique le xs ys hp2
        (List.pairwise_cons.mp h1).2 (List.pairwise_cons.mp h2).2
        (fun a ha b hb => hanti a (by simp [ha]) b (by simp [hb]))
      rw [this]
    · exfalso
      have hxys : x ∈ ys := by
        rcases List.mem_cons.mp hx2 with h | h
        · exact absurd h hxy
        · exact h
      have hyxs : y ∈ xs := by
        have : y ∈ x :: xs := hp.mem_iff.mpr (by simp)
        rcases List.mem_cons.mp this with h | h
        · exact absurd h.symm hxy
        · exact h
      have hxy1 : le x y = true := (List.pairwise_cons.mp h1).1 y hyxs
      have hyx1 : le y x = true := (List.pairwise_cons.mp h2).1 x hxys
      exact hxy (hanti x (by simp [hxys]) y (by simp) hxy1 hyx1)

/-- Specialization used to compute concrete sorted image lists. -/
theorem fileSort_eq {l t : List Str} (hperm : l.Perm t)
    (ht : List.Pairwise (fun a b => fileLe a b = true) t)
    (hanti : ∀ x ∈ t, ∀ y ∈ t, fileLe x y = true → fileLe y x = true → x = y) :
    l.mergeSort fileLe = t :=
  sorted_perm_unique fileLe _ _ ((l.mergeSort_perm fileLe).trans hperm)
    (files_pairwise l) ht hanti

/-! ### Claim theorems -/

/-- C1: in the produced gallery order, for every pair of albums in
order, if both have a non-empty date the lexically greater date string
comes first (date descending); if exactly one has a non-empty date the
dated album comes first; and if the dates are equal (including both
empty) the directory paths are in ascending numeric-aware order. -/
theorem C1_album_order (fsRead : Str → Option Str) (files : List Str) :
    List.Pairwise
      (fun a b : AlbumEntry =>
        (a.date ≠ [] → b.date ≠ [] → lcCmp a.date b.date ≠ .lt)
        ∧ (a.date = [] → b.date = [])
        ∧ (a.date = b.date → localeCompareNumeric a.dir b.dir ≠ .gt))
      ((albumEntries fsRead files).mergeSort albumLe) := by
  refine (albums_pairwise (albumEntries fsRead files)).imp ?_
  intro a b h
  have g := albumLe_iff.mp h
  rw [albumCmp_thenForm] at g
  refine ⟨?_, ?_, ?_⟩
  · intro ha hb hlt
    have hgt : lcCmp b.date a.date = .gt := by
      have hs := lcCmp_swap a.date b.date
      rw [hlt] at hs
      exact hs.symm
    have hd : dateCmp a.date b.date = .gt := by
      unfold dateCmp
      rw [if_pos ⟨ha, hb⟩, hgt]
    rw [hd] at g
    exact g rfl
  · intro ha
    by_contra hb
    have hd : dateCmp a.date b.date = .gt := by
      unfold dateCmp
      rw [if_neg (by simp [ha]), if_neg (by simp [ha]), if_pos hb]
    rw [hd] at g
    exact g rfl
  · intro he
    have hd : dateCmp a.date b.date = .eq := by
      rw [he]
      exact dateCmp_refl _
    rw [hd] at g
    exact g

/-- C2: within every album the images are sorted by the numeric-aware
path comparison, and the concrete album with images img1.png,
img10.png, img2.png is emitted in the order img1, img2, img10. -/
theorem C2_image_order :
    (∀ (m : List (Str × List Str)) (d : Str),
      List.Pairwise (fun a b => localeCompareNumeric a b ≠ .gt)
        ((getGroup m d).mergeSort fileLe))
    ∧ (getGroup (albumsMap
          [str "source/images/a/img1.png", str "source/images/a/img10.png",
            str "source/images/a/img2.png"]) (str "source/images/a")).mergeSort fileLe
        = [str "source/images/a/img1.png", str "source/images/a/img2.png",
            str "source/images/a/img10.png"] := by
  constructor
  · intro m d
    exact (files_pairwise (getGroup m d)).imp (fun h => fileLe_iff.mp h)
  · have h1 : sortedFiles [str "source/images/a/img1.png",
        str "source/images/a/img10.png", str "source/images/a/img2.png"]
        = [str "source/images/a/img1.png", str "source/images/a/img2.png",
            str "source/images/a/img10.png"] := by
      unfold sortedFiles
      exact fileSort_eq (by decide) (by decide) (by decide)
    unfold albumsMap
    rw [h1]
    have h2 : getGroup (groupByDir [str "source/images/a/img1.png",
        str "source/images/a/img2.png", str "source/images/a/img10.png"])
        (str "source/images/a")
        = [str "source/images/a/img1.png", str "source/images/a/img2.png",
            str "source/images/a/img10.png"] := by decide
    rw [h2]
    exact fileSort_eq (List.Perm.refl _) (by decide) (by decide)

/-! ### Escaping lemmas -/

theorem replaceAllCh_append (c : Char) (rep : Str) (a b : Str) :
    replaceAllCh c rep (a ++ b) = replaceAllCh c rep a ++ replaceAllCh c rep b := by
  unfold replaceAllCh
  exact List.flatMap_append a b _

theorem escapeHtml_append (a b : Str) :
    escapeHtml (a ++ b) = escapeHtml a ++ escapeHtml b := by
  unfold escapeHtml
  rw [replaceAllCh_append, replaceAllCh_append, replaceAllCh_append,
    replaceAllCh_append, replaceAllCh_append]

theorem escapeHtml_cons (c : Char) (s : Str) :
    escapeHtml (c :: s) = escChar c ++ escapeHtml s := by
  have h1 : escapeHtml (c :: s) = escapeHtml [c] ++ escapeHtml s := by
    have : (c :: s) = [c] ++ s := rfl
    rw [this, escapeHtml_append]
  rw [h1]
  congr 1
  by_cases e1 : c = '&'
  · subst e1
    decide
  by_cases e2 : c = '<'
  · subst e2
    decide
  by_cases e3 : c = '>'
  · subst e3
    decide
  by_cases e4 : c = '"'
  · subst e4
    decide
  by_cases e5 : c = apos
  · subst e5
    decide
  simp [escapeHtml, replaceAllCh, escChar, e1, e2, e3, e4, e5]

/-- The escaper is exactly the character-wise entity substitution. -/
theorem escapeHtml_flat (s : Str) : escapeHtml s = s.flatMap escChar := by
  induction s with
  | nil => decide
  | cons c cs ih => rw [escapeHtml_cons, ih, List.flatMap_cons]

/-- No entity and no kept character contains a raw `<`. -/
theorem escChar_no_lt (c : Char) : '<' ∉ escChar c := by
  intro h
  by_cases e1 : c = '&'
  · subst e1
    revert h
    decide
  by_cases e2 : c = '<'
  · subst e2
    revert h
    decide
  by_cases e3 : c = '>'
  · subst e3
    revert h
    decide
  by_cases e4 : c = '"'
  · subst e4
    revert h
    decide
  by_cases e5 : c = apos
  · subst e5
    revert h
    decide
  simp [escChar, e1, e2, e3, e4, e5] at h
  exact e2 h.symm

/-- Escaped output never contains a raw `<`. -/
theorem lt_not_in_escape (s : Str) : '<' ∉ escapeHtml s := by
  rw [escapeHtml_flat]
  intro h
  rcases List.mem_flatMap.mp h with ⟨c, _, hc⟩
  exact escChar_no_lt c hc

/-- Any character of an occurring pattern is a character of the host. -/
theorem occursIn_mem {p s : Str} (h : occursIn p s) : ∀ c ∈ p, c ∈ s := by
  rcases h with ⟨u, v, rfl⟩
  intro c hc
  exact List.mem_append.mpr (Or.inr (List.mem_append.mpr (Or.inl hc)))

/-- C3: the escaper substitutes exactly the five special characters
with their entities; any occurrence of a raw script tag in the input
appears escaped in the output, and the output never contains a raw
script tag. -/
theorem C3_escape (s : Str) :
    escapeHtml s = s.flatMap escChar
    ∧ (occursIn (str "<script>") s → occursIn (str "&lt;script&gt;") (escapeHtml s))
    ∧ ¬ occursIn (str "<script>") (escapeHtml s) := by
  refine ⟨escapeHtml_flat s, ?_, ?_⟩
  · rintro ⟨u, v, rfl⟩
    have hp : escapeHtml (str "<script>") = str "&lt;script&gt;" := by decide
    exact ⟨escapeHtml u, escapeHtml v,
      by rw [escapeHtml_append, escapeHtml_append, hp]⟩
  · intro h
    have hin : '<' ∈ escapeHtml s :=
      occursIn_mem h '<' (by decide)
    exact lt_not_in_escape s hin

/-- Concrete check of the script-tag clause of C3. -/
theorem C3_escape_witness :
    occursIn (str "&lt;script&gt;") (escapeHtml (str "a<script>b")) :=
  (C3_escape (str "a<script>b")).2.1 ⟨str "a", str "b", by decide⟩

/-! ### Trim and object lemmas -/

theorem dropWhile_head_false {p : α → Bool} :
    ∀ {l : List α} {c : α} {r : List α}, l.dropWhile p = c :: r → p c = false := by
  intro l
  induction l with
  | nil => intro c r h; cases h
  | cons x xs ih =>
    intro c r h
    by_cases hx : p x
    · rw [List.dropWhile_cons_of_pos hx] at h
      exact ih h
    · rw [List.dropWhile_cons_of_neg hx] at h
      cases h
      simpa using hx

theorem dropWhile_app_last {p : α → Bool} {a : α} (h : p a = false) :
    ∀ xs : List α, (xs ++ [a]).dropWhile p = xs.dropWhile p ++ [a] := by
  intro xs
  induction xs with
  | nil => simp [List.dropWhile, h]
  | cons x t ih =>
    by_cases hx : p x
    · rw [List.cons_append, List.dropWhile_cons_of_pos hx,
        List.dropWhile_cons_of_pos hx, ih]
    · rw [List.cons_append, List.dropWhile_cons_of_neg hx,
        List.dropWhile_cons_of_neg hx]
      rfl

/-- Trimming a string whose first character is not whitespace only
trims on the right. -/
theorem trim_cons_of {c : Char} (h : isWs c = false) (s : Str) :
    trim (c :: s) = c :: (s.reverse.dropWhile isWs).reverse := by
  unfold trim
  rw [List.dropWhile_cons_of_neg (by simp [h]), List.reverse_cons,
    dropWhile_app_last h, List.reverse_append]
  rfl

/-- The first character of a trimmed string is never whitespace. -/
theorem trim_head_false {u : Str} {c : Char} {r : Str}
    (h : trim u = c :: r) : isWs c = false := by
  unfold trim at h
  cases hA : u.dropWhile isWs with
  | nil => rw [hA] at h; cases h
  | cons a A2 =>
    have ha : isWs a = false := dropWhile_head_false hA
    rw [hA, List.reverse_cons, dropWhile_app_last ha, List.reverse_append] at h
    cases h
    exact ha

/-- The last character of a trimmed string is never whitespace. -/
theorem trim_last_false {u : Str} {c : Char}
    (h : (trim u).getLast? = some c) : isWs c = false := by
  unfold trim at h
  cases hB : (u.dropWhile isWs).reverse.dropWhile isWs with
  | nil => rw [hB] at h; cases h
  | cons b B2 =>
    have hb : isWs b = false := dropWhile_head_false hB
    rw [hB] at h
    rw [List.getLast?_reverse] at h
    simp at h
    rw [← h]
    exact hb

/-- Trimming is idempotent. -/
theorem trim_idem (u : Str) : trim (trim u) = trim u := by
  cases hT : trim u with
  | nil => rfl
  | cons c r =>
    have hc : isWs c = false := trim_head_false hT
    rw [trim_cons_of hc]
    congr 1
    cases hR : r.reverse with
    | nil =>
      simp at hR
      simp [hR]
    | cons d R2 =>
      have hr : r = R2.reverse ++ [d] := by
        have h2 := congrArg List.reverse hR
        simpa using h2
      have hd : isWs d = false := by
        refine trim_last_false (u := u) ?_
        rw [hT, hr]
        rw [show c :: (R2.reverse ++ [d]) = (c :: R2.reverse) ++ [d] from rfl]
        exact List.getLast?_concat _
      rw [List.dropWhile_cons_of_neg (by simp [hd]), List.reverse_cons, hr]

theorem objGet_objSet_self (m : List (Str × α)) (k : Str) (v : α) :
    objGet (objSet m k v) k = some v := by
  induction m with
  | nil => simp [objSet, objGet]
  | cons kv t ih =>
    obtain ⟨k0, v0⟩ := kv
    by_cases h : k0 = k
    · simp [objSet, objGet, h]
    · simp [objSet, objGet, h, ih]

theorem objGet_objSet_ne (m : List (Str × α)) {a k : Str} (v : α) (h : a ≠ k) :
    objGet (objSet m a v) k = objGet m k := by
  induction m with
  | nil => simp [objSet, objGet, h]
  | cons kv t ih =>
    obtain ⟨k0, v0⟩ := kv
    by_cases h0 : k0 = a
    · subst h0
      simp [objSet, objGet, h]
    · simp [objSet, objGet, h0, ih]

/-- Last-occurrence-wins characterization of the parse fold. -/
theorem objGet_yamlFold (k : Str) :
    ∀ (lines : List Str) (init : List (Str × Str)),
      objGet (lines.foldl (fun obj line =>
          match procLine line with
          | none => obj
          | some (k2, v2) => objSet obj k2 v2) init) k
      = (match ((lines.filterMap procLine).filter
            (fun kv => decide (kv.1 = k))).getLast? with
        | some kv => some kv.2
        | none => objGet init k)
  | [], init => by simp
  | line :: t, init => by
    rw [List.foldl_cons, List.filterMap_cons]
    cases hpl : procLine line with
    | none => exact objGet_yamlFold k t init
    | some kv =>
      obtain ⟨k2, v2⟩ := kv
      rw [objGet_yamlFold k t (objSet init k2 v2)]
      rw [List.filter_cons]
      by_cases hk : k2 = k
      · rw [if_pos (by simp [hk])]
        cases hF : ((t.filterMap procLine).filter
            (fun kv => decide (kv.1 = k))) with
        | nil =>
          have : objGet (objSet init k2 v2) k = some v2 := by
            rw [← hk]
            exact objGet_objSet_self init k2 v2
          simp [this]
        | cons f fs =>
          rw [List.getLast?_cons_cons]
          rcases hlast : (f :: fs).getLast? with _ | last
          · exfalso
            rw [List.getLast?_eq_none_iff] at hlast
            cases hlast
          · rfl
      · rw [if_neg (by simp [hk])]
        have : objGet (objSet init k2 v2) k = objGet init k :=
          objGet_objSet_ne init v2 hk
        rw [this]

/-- C4: the line-oriented parser treats lines independently: blank,
comment-marker and colon-free lines contribute nothing; every other
line yields its trimmed key (text before the first colon), a value
fully wrapped in matching quotes loses exactly one quote layer, and
lookup of a key returns the value of its last contributing line. -/
theorem C4_yaml_lines :
    (∀ (text k : Str),
      objGet (parseSimpleYaml text) k
      = (match (((splitLines text).filterMap procLine).filter
            (fun kv => decide (kv.1 = k))).getLast? with
        | some kv => some kv.2
        | none => none))
    ∧ (∀ line : Str,
        trim line = [] ∨ hasHead '#' (trim line) = true
          ∨ idxOfCh ':' (trim line) = none →
        procLine line = none)
    ∧ (∀ (line : Str) (i : Nat),
        idxOfCh ':' (trim line) = some i → trim line ≠ [] →
        hasHead '#' (trim line) = false →
        ∃ v, procLine line = some (trim ((trim line).take i), v))
    ∧ (∀ (line : Str) (i : Nat),
        idxOfCh ':' (trim line) = some i → trim line ≠ [] →
        hasHead '#' (trim line) = false →
        ((hasHead '"' (trim ((trim line).drop (i + 1))) = true
            ∧ lastIs '"' (trim ((trim line).drop (i + 1))) = true)
          ∨ (hasHead apos (trim ((trim line).drop (i + 1))) = true
            ∧ lastIs apos (trim ((trim line).drop (i + 1))) = true)) →
        procLine line = some (trim ((trim line).take i),
          ((trim ((trim line).drop (i + 1))).drop 1).dropLast)) := by
  refine ⟨?_, ?_, ?_, ?_⟩
  · intro text k
    unfold parseSimpleYaml
    exact objGet_yamlFold k (splitLines text) []
  · intro line h
    rcases h with h1 | h2 | h3
    · simp [procLine, h1]
    · by_cases h1 : trim line = [] <;> simp [procLine, h1, h2]
    · by_cases h1 : trim line = []
      · simp [procLine, h1]
      · by_cases h2 : hasHead '#' (trim line) = true <;>
          simp [procLine, h1, h2, h3]
  · intro line i hI hne hcm
    exact ⟨procVal (trim ((trim line).drop (i + 1))),
      by simp [procLine, hne, hcm, hI]⟩
  · intro line i hI hne hcm hq
    have hv : procVal (trim ((trim line).drop (i + 1)))
        = ((trim ((trim line).drop (i + 1))).drop 1).dropLast := by
      rcases hq with ⟨hq1, hq2⟩ | ⟨hq1, hq2⟩
      · simp [procVal, hq1, hq2]
      · have hdq : hasHead '"' (trim ((trim line).drop (i + 1))) = false := by
          cases hh : trim ((trim line).drop (i + 1)) with
          | nil => cases hh ▸ hq1
          | cons c0 w2 =>
            rw [hh] at hq1
            have hc0 : c0 = apos := by simpa [hasHead] using hq1
            subst hc0
            simp [hasHead]
            decide
        simp [procVal, hq1, hq2, hdq]
    rw [← hv]
    simp [procLine, hne, hcm, hI]

/-- Concrete check of C4: comment lines are skipped, quotes are
stripped once, and the last duplicate wins. -/
theorem C4_yaml_lines_witness :
    objGet (parseSimpleYaml (str "t: 1\n#c\nt: \"2\"")) (str "t")
      = some (str "2") := by
  rw [C4_yaml_lines.1 (str "t: 1\n#c\nt: \"2\"") (str "t")]
  decide

/-- C5: a value not beginning with a quote is truncated at the first
`#` after the colon and then trimmed; a value wrapped in matching
quotes is left intact apart from losing one quote layer, so a `#`
inside the quotes survives literally. -/
theorem C5_inline_comments :
    (∀ (line : Str) (i hpos : Nat),
      idxOfCh ':' (trim line) = some i → trim line ≠ [] →
      hasHead '#' (trim line) = false →
      hasHead '"' (trim ((trim line).drop (i + 1))) = false →
      hasHead apos (trim ((trim line).drop (i + 1))) = false →
      idxOfCh '#' (trim ((trim line).drop (i + 1))) = some hpos →
      procLine line = some (trim ((trim line).take i),
        trim ((trim ((trim line).drop (i + 1))).take hpos)))
    ∧ (∀ (line : Str) (i : Nat),
      idxOfCh ':' (trim line) = some i → trim line ≠ [] →
      hasHead '#' (trim line) = false →
      ((hasHead '"' (trim ((trim line).drop (i + 1))) = true
          ∧ lastIs '"' (trim ((trim line).drop (i + 1))) = true)
        ∨ (hasHead apos (trim ((trim line).drop (i + 1))) = true
          ∧ lastIs apos (trim ((trim line).drop (i + 1))) = true)) →
      procLine line = some (trim ((trim line).take i),
        ((trim ((trim line).drop (i + 1))).drop 1).dropLast)
      ∧ (∀ c, c ∈ ((trim ((trim line).drop (i + 1))).drop 1).dropLast →
          c ∈ (match procLine line with
              | some kv => kv.2
              | none => []))) := by
  constructor
  · intro line i hpos hI hne hcm hq1 hq2 hH
    have hqt : ∀ q : Char,
        hasHead q (trim ((trim line).drop (i + 1))) = false →
        hasHead q (trim ((trim ((trim line).drop (i + 1))).take hpos)) = false := by
      intro q hqf
      cases hpos with
      | zero => simp [trim, hasHead]
      | succ n =>
        cases hw : trim ((trim line).drop (i + 1)) with
        | nil =>
          rw [hw] at hH
          cases hH
        | cons c0 w2 =>
          have hc0 : isWs c0 = false := trim_head_false hw
          rw [hw] at hqf
          have hc0q : (c0 = q) = False := by
            simpa [hasHead] using hqf
          rw [List.take_succ_cons, trim_cons_of hc0]
          simp [hasHead, hc0q]
    have hv : procVal (trim ((trim line).drop (i + 1)))
        = trim ((trim ((trim line).drop (i + 1))).take hpos) := by
      have d1 := hqt '"' hq1
      have d2 := hqt apos hq2
      simp [procVal, hq1, hq2, hH, d1, d2]
    rw [← hv]
    simp [procLine, hne, hcm, hI]
  · intro line i hI hne hcm hq
    have hv : procVal (trim ((trim line).drop (i + 1)))
        = ((trim ((trim line).drop (i + 1))).drop 1).dropLast := by
      rcases hq with ⟨hq1, hq2⟩ | ⟨hq1, hq2⟩
      · simp [procVal, hq1, hq2]
      · have hdq : hasHead '"' (trim ((trim line).drop (i + 1))) = false := by
          cases hh : trim ((trim line).drop (i + 1)) with
          | nil => cases hh ▸ hq1
          | cons c0 w2 =>
            rw [hh] at hq1
            have hc0 : c0 = apos := by simpa [hasHead] using hq1
            subst hc0
            simp [hasHead]
            decide
        simp [procVal, hq1, hq2, hdq]
    have hp : procLine line = some (trim ((trim line).take i),
        ((trim ((trim line).drop (i + 1))).drop 1).dropLast) := by
      rw [← hv]
      simp [procLine, hne, hcm, hI]
    refine ⟨hp, ?_⟩
    intro c hc
    rw [hp]
    exact hc

/-- Concrete check of C5: a trailing comment is stripped from an
unquoted value, and a quoted value keeps its `#`. -/
theorem C5_inline_comments_witness :
    procLine (str "k: v # c") = some (str "k", str "v")
    ∧ procLine (str "k: \"a#b\"") = some (str "k", str "a#b") := by
  constructor
  · rw [C5_inline_comments.1 (str "k: v # c") 1 2 (by decide) (by decide)
      (by decide) (by decide) (by decide) (by decide)]
    decide
  · rw [(C5_inline_comments.2 (str "k: \"a#b\"") 1 (by decide) (by decide)
      (by decide) (Or.inl ⟨by decide, by decide⟩)).1]
    decide

/-! ### Metadata loader lemmas -/

theorem trim_nil : trim ([] : Str) = [] := rfl

theorem jsonField_trimmed (data : List (Str × JVal)) (k : Str) :
    trim (jsonField data k) = jsonField data k := by
  unfold jsonField
  cases h : objGet data k with
  | none => exact trim_nil
  | some v =>
    by_cases ht : jsTruthy v = true <;> simp [ht, trim_idem, trim_nil]

theorem metaFromYaml_trimmed (data : List (Str × Str)) :
    trim (metaFromYaml data).title = (metaFromYaml data).title
    ∧ trim (metaFromYaml data).date = (metaFromYaml data).date
    ∧ trim (metaFromYaml data).desc = (metaFromYaml data).desc := by
  unfold metaFromYaml
  exact ⟨trim_idem _, trim_idem _, trim_idem _⟩

theorem metaFromJson_trimmed (data : List (Str × JVal)) :
    trim (metaFromJson data).title = (metaFromJson data).title
    ∧ trim (metaFromJson data).date = (metaFromJson data).date
    ∧ trim (metaFromJson data).desc = (metaFromJson data).desc := by
  unfold metaFromJson
  exact ⟨jsonField_trimmed _ _, jsonField_trimmed _ _, jsonField_trimmed _ _⟩

theorem tryCand_trimmed {fsRead : Str → Option Str} {albumDir name : Str}
    {m : AlbumMeta} (h : tryCand fsRead albumDir name = some m) :
    trim m.title = m.title ∧ trim m.date = m.date ∧ trim m.desc = m.desc := by
  unfold tryCand at h
  cases hr : fsRead (pathJoin albumDir name) with
  | none => rw [hr] at h; cases h
  | some raw =>
    rw [hr] at h
    have h2 : (if endsWithS (str ".json") name = true
        then Option.map metaFromJson (jsonParse raw)
        else some (metaFromYaml (parseSimpleYaml raw))) = some m := h
    by_cases hj : endsWithS (str ".json") name = true
    · rw [if_pos hj] at h2
      cases hp : jsonParse raw with
      | none => rw [hp] at h2; cases h2
      | some data =>
        rw [hp] at h2
        have h3 : some (metaFromJson data) = some m := h2
        cases h3
        exact metaFromJson_trimmed data
    · rw [if_neg hj] at h2
      simp only [Option.some.injEq] at h2
      rw [← h2]
      exact metaFromYaml_trimmed _

/-- C6: the loader probes album.yml, album.yaml, album.json in order;
the first readable and parsable candidate is used, a missing file or a
JSON parse error silently advances to the next candidate, total
failure yields the all-empty record, and every returned field is
trimmed. -/
theorem C6_album_meta (fsRead : Str → Option Str) (dir : Str) :
    (∀ m, tryCand fsRead dir (str "album.yml") = some m →
      readAlbumMeta fsRead dir = m)
    ∧ (∀ m, tryCand fsRead dir (str "album.yml") = none →
      tryCand fsRead dir (str "album.yaml") = some m →
      readAlbumMeta fsRead dir = m)
    ∧ (∀ m, tryCand fsRead dir (str "album.yml") = none →
      tryCand fsRead dir (str "album.yaml") = none →
      tryCand fsRead dir (str "album.json") = some m →
      readAlbumMeta fsRead dir = m)
    ∧ (tryCand fsRead dir (str "album.yml") = none →
      tryCand fsRead dir (str "album.yaml") = none →
      tryCand fsRead dir (str "album.json") = none →
      readAlbumMeta fsRead dir = { title := [], date := [], desc := [] })
    ∧ (∀ name, fsRead (pathJoin dir name) = none →
      tryCand fsRead dir name = none)
    ∧ (∀ raw, fsRead (pathJoin dir (str "album.json")) = some raw →
      jsonParse raw = none →
      tryCand fsRead dir (str "album.json") = none)
    ∧ (trim (readAlbumMeta fsRead dir).title = (readAlbumMeta fsRead dir).title
      ∧ trim (readAlbumMeta fsRead dir).date = (readAlbumMeta fsRead dir).date
      ∧ trim (readAlbumMeta fsRead dir).desc = (readAlbumMeta fsRead dir).desc) := by
  refine ⟨?_, ?_, ?_, ?_, ?_, ?_, ?_⟩
  · intro m h1
    simp [readAlbumMeta, readAlbumMetaAux, albumCandidates, h1]
  · intro m h1 h2
    simp [readAlbumMeta, readAlbumMetaAux, albumCandidates, h1, h2]
  · intro m h1 h2 h3
    simp [readAlbumMeta, readAlbumMetaAux, albumCandidates, h1, h2, h3]
  · intro h1 h2 h3
    simp [readAlbumMeta, readAlbumMetaAux, albumCandidates, h1, h2, h3]
  · intro name h
    simp [tryCand, h]
  · intro raw h1 h2
    have hj : endsWithS (str ".json") (str "album.json") = true := by decide
    simp [tryCand, h1, hj, h2]
  · have key : ∀ s : List Str,
        trim (readAlbumMetaAux fsRead dir s).title
            = (readAlbumMetaAux fsRead dir s).title
        ∧ trim (readAlbumMetaAux fsRead dir s).date
            = (readAlbumMetaAux fsRead dir s).date
        ∧ trim (readAlbumMetaAux fsRead dir s).desc
            = (readAlbumMetaAux fsRead dir s).desc := by
      intro s
      induction s with
      | nil => exact ⟨rfl, rfl, rfl⟩
      | cons n rest ih =>
        simp only [readAlbumMetaAux]
        cases h : tryCand fsRead dir n with
        | some m => exact tryCand_trimmed h
        | none => exact ih
    exact key albumCandidates

/-- Concrete check of C6: with album.yml absent, album.yaml is used;
its fields come back parsed and trimmed. -/
theorem C6_album_meta_witness :
    readAlbumMeta
      (fun p => if p = str "source/images/a/album.yaml"
        then some (str "title:  T \ndate: 2024-01-01")
        else none)
      (str "source/images/a")
    = { title := str "T", date := str "2024-01-01", desc := [] } :=
  (C6_album_meta
      (fun p => if p = str "source/images/a/album.yaml"
        then some (str "title:  T \ndate: 2024-01-01")
        else none)
      (str "source/images/a")).2.1
    { title := str "T", date := str "2024-01-01", desc := [] }
    (by decide) (by decide)

/-! ### Grouping lemmas -/

theorem mem_keys_addToGroup (d0 d : Str) (f : Str) :
    ∀ m : List (Str × List Str),
      d0 ∈ (addToGroup m d f).map (fun kv => kv.1)
        ↔ d0 ∈ m.map (fun kv => kv.1) ∨ d0 = d
  | [] => by simp [addToGroup]
  | (k, v) :: t => by
    by_cases hk : k = d
    · subst hk
      simp [addToGroup]
      tauto
    · simp only [addToGroup, if_neg hk, List.map_cons, List.mem_cons,
        mem_keys_addToGroup d0 d f t]
      tauto

theorem mem_keys_groupFold (d : Str) :
    ∀ (l : List Str) (init : List (Str × List Str)),
      d ∈ ((l.foldl (fun m f => addToGroup m (dirnameS f) f) init).map
          (fun kv => kv.1))
        ↔ d ∈ init.map (fun kv => kv.1) ∨ ∃ f ∈ l, dirnameS f = d
  | [], init => by simp
  | f0 :: t, init => by
    rw [List.foldl_cons, mem_keys_groupFold d t]
    rw [mem_keys_addToGroup]
    constructor
    · rintro ((h | h) | h)
      · exact Or.inl h
      · exact Or.inr ⟨f0, by simp, h.symm⟩
      · rcases h with ⟨g, hg, hd⟩
        exact Or.inr ⟨g, by simp [hg], hd⟩
    · rintro (h | ⟨g, hg, hd⟩)
      · exact Or.inl (Or.inl h)
      · rcases List.mem_cons.mp hg with rfl | hg2
        · exact Or.inl (Or.inr hd.symm)
        · exact Or.inr ⟨g, hg2, hd⟩

/-- C7: a file contributes exactly when its lowercased extension is one
of .jpg/.jpeg/.png/.webp/.gif; an album directory exists exactly when
some qualifying image lies immediately inside it; and a directory
holding only a sidecar file produces no album. -/
theorem C7_filter_group :
    (∀ (files : List Str) (f : Str),
      f ∈ filterImages files ↔ f ∈ files ∧ extLower f ∈ exts)
    ∧ (∀ (files : List Str) (d : Str),
      d ∈ albumDirs files ↔ ∃ f ∈ files, extLower f ∈ exts ∧ dirnameS f = d)
    ∧ albumsMap [str "source/images/a/album.yml"] = [] := by
  refine ⟨?_, ?_, ?_⟩
  · intro files f
    unfold filterImages
    rw [List.mem_filter]
    simp
  · intro files d
    unfold albumDirs albumsMap groupByDir
    rw [mem_keys_groupFold]
    simp only [List.map_nil, List.not_mem_nil, false_or]
    constructor
    · rintro ⟨f, hf, hd⟩
      have hf2 : f ∈ filterImages files := by
        unfold sortedFiles at hf
        exact (((filterImages files).mergeSort_perm fileLe).mem_iff).mp hf
      unfold filterImages at hf2
      rw [List.mem_filter] at hf2
      exact ⟨f, hf2.1, by simpa using hf2.2, hd⟩
    · rintro ⟨f, hf, he, hd⟩
      refine ⟨f, ?_, hd⟩
      unfold sortedFiles
      refine (((filterImages files).mergeSort_perm fileLe).mem_iff).mpr ?_
      unfold filterImages
      rw [List.mem_filter]
      exact ⟨hf, by simpa using he⟩
  · show groupByDir ((filterImages [str "source/images/a/album.yml"]).mergeSort fileLe) = []
    rw [show filterImages [str "source/images/a/album.yml"] = [] from by decide,
      List.mergeSort_nil]
    rfl

/-! ### Occurrence and rendering helpers -/

theorem occursIn_self (p : Str) : occursIn p p := ⟨[], [], by simp⟩

theorem occursIn_append_left {p t : Str} (s : Str) (h : occursIn p t) :
    occursIn p (s ++ t) := by
  rcases h with ⟨u, v, rfl⟩
  exact ⟨s ++ u, v, by simp⟩

theorem occursIn_append_right {p s : Str} (t : Str) (h : occursIn p s) :
    occursIn p (s ++ t) := by
  rcases h with ⟨u, v, rfl⟩
  exact ⟨u, v ++ t, by simp⟩

theorem occursIn_trans {a b c : Str} (h1 : occursIn a b) (h2 : occursIn b c) :
    occursIn a c := by
  rcases h1 with ⟨u, v, rfl⟩
  rcases h2 with ⟨u2, v2, rfl⟩
  exact ⟨u2 ++ u, v ++ v2, by simp⟩

theorem occursIn_joinSep {f : Str → Str} (sep : Str) :
    ∀ (l : List Str) (p : Str), p ∈ l → occursIn (f p) (joinSep sep (l.map f))
  | [], p, hp => absurd hp (by simp)
  | [x], p, hp => by
    have : p = x := by simpa using hp
    subst this
    exact occursIn_self _
  | x :: y :: ys, p, hp => by
    rcases List.mem_cons.mp hp with rfl | hp2
    · show occursIn (f p) ((f p ++ sep) ++ joinSep sep ((y :: ys).map f))
      exact occursIn_append_right _ (occursIn_append_right _ (occursIn_self _))
    · show occursIn (f p) ((f x ++ sep) ++ joinSep sep ((y :: ys).map f))
      exact occursIn_append_left _ (occursIn_joinSep sep (y :: ys) p hp2)

theorem splitOnChar_no {c : Char} :
    ∀ {x : Str}, c ∉ x → splitOnChar c x = [x]
  | [], _ => rfl
  | a :: t, h => by
    have ha : ¬(a = c) := fun he => h (by simp [he])
    have ht : c ∉ t := fun he => h (by simp [he])
    rw [splitOnChar, if_neg ha, splitOnChar_no ht]

theorem splitOnChar_sep (c : Char) :
    ∀ {x : Str} (y : Str), c ∉ x →
      splitOnChar c (x ++ c :: y) = x :: splitOnChar c y
  | [], y, _ => by simp [splitOnChar]
  | a :: t, y, h => by
    have ha : ¬(a = c) := fun he => h (by simp [he])
    have ht : c ∉ t := fun he => h (by simp [he])
    rw [List.cons_append, splitOnChar, if_neg ha, splitOnChar_sep c y ht]

theorem app_ne_nil {t : List α} (s : List α) (h : t ≠ []) : s ++ t ≠ [] := by
  simp [h]

theorem hasHead_append (c : Char) {s : Str} (t : Str) (h : s ≠ []) :
    hasHead c (s ++ t) = hasHead c s := by
  cases s with
  | nil => exact absurd rfl h
  | cons a r => rfl

theorem lastIs_app {c : Char} {t : Str} (s : Str) (h : lastIs c t = true)
    (hne : t ≠ []) : lastIs c (s ++ t) = true := by
  induction s with
  | nil => simpa using h
  | cons a r ih =>
    unfold lastIs at ih ⊢
    rw [List.cons_append]
    cases hw : r ++ t with
    | nil =>
      exfalso
      exact app_ne_nil r hne hw
    | cons b w =>
      rw [List.getLast?_cons_cons]
      rw [hw] at ih
      exact ih

theorem trim_nl {c : Char} (s : Str) (hc : isWs c = false) :
    trim ('\n' :: c :: s) = trim (c :: s) := by
  unfold trim
  rw [List.dropWhile_cons_of_pos (by simp [isWs]),
    List.dropWhile_cons_of_neg (by simp [hc])]

theorem trim_nlcons {core : Str} (hh : hasHead '<' core = true)
    (hl : lastIs '>' core = true) : trim ('\n' :: core) = core := by
  cases core with
  | nil => cases hh
  | cons c0 r =>
    have hc0 : c0 = '<' := by simpa [hasHead] using hh
    subst hc0
    rw [trim_nl r (by decide), trim_cons_of (by decide)]
    congr 1
    cases hr : r.reverse with
    | nil =>
      have : r = [] := by simpa using congrArg List.reverse hr
      subst this
      exfalso
      revert hl
      decide
    | cons d rr =>
      have hd : d = '>' := by
        have h1 : r.getLast? = some d := by
          rw [← List.head?_reverse, hr]
          rfl
        cases hrr : r with
        | nil =>
          rw [hrr] at hr
          cases hr
        | cons e es =>
          simp only [lastIs, decide_eq_true_eq] at hl
          rw [hrr, List.getLast?_cons_cons] at hl
          rw [hrr] at h1
          rw [h1] at hl
          simpa using hl
      subst hd
      rw [List.dropWhile_cons_of_neg (by decide)]
      rw [← hr, List.reverse_reverse]

theorem mem_basename_sub {p : Str} {c : Char} (h : c ∈ basenameS p) : c ∈ p := by
  unfold basenameS at h
  rw [List.mem_reverse] at h
  have := List.takeWhile_subset (l := p.reverse) (fun x => decide (x ≠ '/')) h
  exact List.mem_reverse.mp this

theorem mem_parseName_sub {p : Str} {c : Char} (h : c ∈ parseName p) : c ∈ p := by
  unfold parseName at h
  exact mem_basename_sub (List.take_subset _ _ h)

theorem nl_not_in_toSiteUrl {p : Str} (h : '\n' ∉ p) : '\n' ∉ toSiteUrl p := by
  unfold toSiteUrl
  intro hm
  have hs : '\n' ∉ p.map (fun c => if c = '\\' then '/' else c) := by
    intro hm3
    rcases List.mem_map.mp hm3 with ⟨c, hc, he⟩
    by_cases hb : c = '\\'
    · rw [if_pos hb] at he
      exact absurd he.symm (by decide)
    · rw [if_neg hb] at he
      rw [he] at hc
      exact h hc
  rcases List.mem_cons.mp hm with he | hm2
  · exact absurd he (by decide)
  · by_cases hcond : startsWithS (str "source/")
        (p.map (fun c => if c = '\\' then '/' else c)) = true
    · rw [if_pos hcond] at hm2
      exact hs (List.drop_subset _ _ hm2)
    · rw [if_neg hcond] at hm2
      exact hs hm2

theorem nl_escChar {c : Char} (h : '\n' ∈ escChar c) : c = '\n' := by
  by_cases e1 : c = '&'
  · subst e1
    revert h
    decide
  by_cases e2 : c = '<'
  · subst e2
    revert h
    decide
  by_cases e3 : c = '>'
  · subst e3
    revert h
    decide
  by_cases e4 : c = '"'
  · subst e4
    revert h
    decide
  by_cases e5 : c = apos
  · subst e5
    revert h
    decide
  simp [escChar, e1, e2, e3, e4, e5] at h
  exact h.symm

theorem nl_not_in_escapeHtml {s : Str} (h : '\n' ∉ s) : '\n' ∉ escapeHtml s := by
  rw [escapeHtml_flat]
  intro hm
  rcases List.mem_flatMap.mp hm with ⟨c, hc, hcc⟩
  rw [nl_escChar hcc] at hc
  exact h hc

/-- Eliminating the final `trim`: trimming the section template removes
exactly its leading newline. -/
theorem section_trim (t d ds c : Str) :
    sectionHtml t d ds c = sectionTail t d ds c := by
  unfold sectionHtml sectionInner
  apply trim_nlcons
  · rfl
  · unfold sectionTail
    simp only [← List.append_assoc]
    exact lastIs_app _ (by decide) (by decide)

/-- The alt attribute of one card survives indentation and joining. -/
theorem alt_in_cardBlock {p : Str} (h : '\n' ∉ p) :
    occursIn (str "\" alt=\"" ++ (escapeHtml (parseName p) ++ str "\">"))
      (cardBlock p) := by
  have hurl : '\n' ∉ toSiteUrl p := nl_not_in_toSiteUrl h
  have halt : '\n' ∉ escapeHtml (parseName p) :=
    nl_not_in_escapeHtml (fun hm => h (mem_parseName_sub hm))
  have n1 : '\n' ∉ cardLine1 := by decide
  have n4 : '\n' ∉ cardLine4 := by decide
  have n5 : '\n' ∉ cardLine5 := by decide
  have n2 : '\n' ∉ cardLine2 (toSiteUrl p) := by
    intro hm
    simp only [cardLine2, List.mem_append] at hm
    rcases hm with (hm | hm) | hm
    · exact absurd hm (by decide)
    · exact hurl hm
    · exact absurd hm (by decide)
  have n3 : '\n' ∉ cardLine3 (toSiteUrl p) (escapeHtml (parseName p)) := by
    intro hm
    simp only [cardLine3, List.mem_append] at hm
    rcases hm with ((hm | hm) | hm) | (hm | hm)
    · exact absurd hm (by decide)
    · exact hurl hm
    · exact absurd hm (by decide)
    · exact halt hm
    · exact absurd hm (by decide)
  have hsplit : splitOnChar '\n' (cardHtml p)
      = [cardLine1, cardLine2 (toSiteUrl p),
          cardLine3 (toSiteUrl p) (escapeHtml (parseName p)),
          cardLine4, cardLine5] := by
    simp only [cardHtml]
    rw [splitOnChar_sep '\n' _ n1, splitOnChar_sep '\n' _ n2,
      splitOnChar_sep '\n' _ n3, splitOnChar_sep '\n' _ n4,
      splitOnChar_no n5]
  have hpat : occursIn (str "\" alt=\"" ++ (escapeHtml (parseName p) ++ str "\">"))
      (str "      " ++ cardLine3 (toSiteUrl p) (escapeHtml (parseName p))) := by
    refine occursIn_append_left _ ?_
    refine ⟨str "    <img src=\"" ++ toSiteUrl p, [], ?_⟩
    unfold cardLine3
    simp [List.append_assoc]
  have hjoin : occursIn (str "      " ++ cardLine3 (toSiteUrl p)
        (escapeHtml (parseName p)))
      (cardBlock p) := by
    unfold cardBlock indent6
    rw [hsplit]
    exact occursIn_joinSep (f := fun l => str "      " ++ l) (str "\n") _ _
      (by simp)
  exact occursIn_trans hpat hjoin

theorem section_trimNoDate (t ds c : Str) :
    sectionHtmlNoDate t ds c = sectionTailNoDate t ds c := by
  unfold sectionHtmlNoDate
  apply trim_nlcons
  · rfl
  · unfold sectionTailNoDate
    simp only [← List.append_assoc]
    exact lastIs_app _ (by decide) (by decide)

theorem section_trimNoDesc (t d c : Str) :
    sectionHtmlNoDesc t d c = sectionTailNoDesc t d c := by
  unfold sectionHtmlNoDesc
  apply trim_nlcons
  · rfl
  · unfold sectionTailNoDesc
    simp only [← List.append_assoc]
    exact lastIs_app _ (by decide) (by decide)

/-- C8: every album block renders through the section template with an
escaped title; the date and description spans appear exactly when
non-empty and are omitted entirely (no empty tag) when empty; and each
image yields one card whose alt attribute is the escaped filename
without extension. -/
theorem C8_album_block :
    (∀ (fsRead : Str → Option Str) (m : List (Str × List Str)) (dir : Str),
      buildSection fsRead m dir
        = sectionHtml
            (if (readAlbumMeta fsRead dir).title ≠ []
              then (readAlbumMeta fsRead dir).title else basenameS dir)
            (readAlbumMeta fsRead dir).date
            (readAlbumMeta fsRead dir).desc
            (joinSep (str "\n")
              (((getGroup m dir).mergeSort fileLe).map cardBlock)))
    ∧ (∀ title date desc cards : Str,
      occursIn (escapeHtml title) (sectionHtml title date desc cards)
      ∧ (date ≠ [] → occursIn (dateSpanOf date) (sectionHtml title date desc cards))
      ∧ (date = [] →
          sectionHtml title date desc cards = sectionHtmlNoDate title desc cards)
      ∧ (desc ≠ [] → occursIn (descSpanOf desc) (sectionHtml title date desc cards))
      ∧ (desc = [] →
          sectionHtml title date desc cards = sectionHtmlNoDesc title date cards))
    ∧ (∀ (title date desc p : Str) (imgs : List Str), p ∈ imgs → '\n' ∉ p →
      occursIn (str "\" alt=\"" ++ (escapeHtml (parseName p) ++ str "\">"))
        (sectionHtml title date desc (joinSep (str "\n") (imgs.map cardBlock)))) := by
  refine ⟨fun _ _ _ => rfl, ?_, ?_⟩
  · intro title date desc cards
    rw [section_trim]
    refine ⟨?_, ?_, ?_, ?_, ?_⟩
    · exact ⟨secL1, _, rfl⟩
    · intro hd
      refine ⟨secL1 ++ (escapeHtml title ++ secL2),
        secL3 ++ ((if desc ≠ [] then descSpanOf desc else []) ++
          (secL4 ++ (cards ++ secL5))), ?_⟩
      unfold sectionTail
      rw [if_pos hd]
      simp [List.append_assoc]
    · intro hd
      rw [section_trimNoDate]
      subst hd
      unfold sectionTail sectionTailNoDate
      simp
    · intro hds
      refine ⟨secL1 ++ (escapeHtml title ++ (secL2 ++
          ((if date ≠ [] then dateSpanOf date else []) ++ secL3))),
        secL4 ++ (cards ++ secL5), ?_⟩
      unfold sectionTail
      rw [if_pos hds]
      simp [List.append_assoc]
    · intro hds
      rw [section_trimNoDesc]
      subst hds
      unfold sectionTail sectionTailNoDesc
      simp
  · intro title date desc p imgs hp hnl
    rw [section_trim]
    refine occursIn_trans (occursIn_trans (alt_in_cardBlock hnl)
      (occursIn_joinSep (f := cardBlock) (str "\n") imgs p hp)) ?_
    refine ⟨secL1 ++ (escapeHtml title ++ (secL2 ++
        ((if date ≠ [] then dateSpanOf date else []) ++
          (secL3 ++ ((if desc ≠ [] then descSpanOf desc else []) ++ secL4))))),
      secL5, ?_⟩
    unfold sectionTail
    simp [List.append_assoc]

/-- Concrete check of C8: the alt attribute of a concrete image shows
up escaped inside its album's rendered block. -/
theorem C8_album_block_witness :
    occursIn (str "\" alt=\"" ++ (escapeHtml (parseName (str "source/images/a/b.png"))
        ++ str "\">"))
      (sectionHtml (str "T") (str "2024-01-01") []
        (joinSep (str "\n") ([str "source/images/a/b.png"].map cardBlock))) :=
  C8_album_block.2.2 (str "T") (str "2024-01-01") [] (str "source/images/a/b.png")
    [str "source/images/a/b.png"] (by simp) (by decide)

/-! ### Schedule lemmas -/

theorem runSchedule_getElem (f : Str → AlbumEntry) (dirs : List Str) (j : Nat) :
    ∀ (order : List Nat) (init : List (Option AlbumEntry)),
      (order.foldl (fun results i =>
          results.set i (some (f (dirs.getD i [])))) init)[j]?
      = if j ∈ order ∧ j < init.length
        then some (some (f (dirs.getD j [])))
        else init[j]?
  | [], init => by simp
  | i0 :: rest, init => by
    rw [List.foldl_cons, runSchedule_getElem f dirs j rest]
    rw [List.length_set]
    by_cases hr : j ∈ rest ∧ j < init.length
    · rw [if_pos hr, if_pos ⟨by simp [hr.1], hr.2⟩]
    · rw [if_neg hr, List.getElem?_set]
      by_cases he : i0 = j
      · subst he
        by_cases hl : i0 < init.length
        · rw [if_pos rfl, if_pos hl, if_pos ⟨by simp, hl⟩]
        · rw [if_pos rfl, if_neg hl, if_neg (fun hc => hl hc.2)]
          exact (List.getElem?_eq_none (by omega)).symm
      · rw [if_neg he]
        have : ¬(j ∈ i0 :: rest ∧ j < init.length) := by
          intro hc
          rcases List.mem_cons.mp hc.1 with h1 | h1
          · exact he h1.symm
          · exact hr ⟨h1, hc.2⟩
        rw [if_neg this]

/-- A complete completion schedule fills every slot with its own
album's entry, whatever the completion order. -/
theorem runSchedule_eq (f : Str → AlbumEntry) (dirs : List Str)
    {order : List Nat} (ho : order.Perm (List.range dirs.length)) :
    runSchedule f dirs order = dirs.map (fun d => some (f d)) := by
  apply List.ext_getElem?
  intro j
  unfold runSchedule
  rw [runSchedule_getElem, List.length_replicate]
  by_cases hj : j < dirs.length
  · have hmem : j ∈ order := ho.mem_iff.mpr (List.mem_range.mpr hj)
    rw [if_pos ⟨hmem, hj⟩, List.getElem?_map, List.getElem?_eq_getElem hj]
    have : dirs.getD j [] = dirs[j] := by
      rw [List.getD_eq_getElem?_getD, List.getElem?_eq_getElem hj]
      rfl
    rw [this]
    rfl
  · rw [if_neg (fun hc => hj hc.2), List.getElem?_replicate, if_neg hj,
      List.getElem?_map, List.getElem?_eq_none (by omega)]
    rfl

theorem filterMap_id_map_some (g : α → β) :
    ∀ l : List α, (l.map (fun x => some (g x))).filterMap id = l.map g
  | [] => rfl
  | x :: xs => by
    simp [filterMap_id_map_some g xs, List.filterMap_cons]

/-- C9: the generator is deterministic: the output does not depend on
the completion order of the concurrent metadata reads, and two runs
differ at most in the generation date spliced between the fixed page
head and the input-determined page tail. -/
theorem C9_determinism (fsRead : Str → Option Str) (files : List Str) :
    (∀ (today : Str) (o1 o2 : List Nat),
      o1.Perm (List.range (albumDirs files).length) →
      o2.Perm (List.range (albumDirs files).length) →
      pageOfSched fsRead files today o1 = pageOfSched fsRead files today o2
      ∧ pageOfSched fsRead files today o1 = pageOf fsRead files today)
    ∧ (∀ today : Str,
      pageOf fsRead files today
        = pageBefore ++ today ++ pageAfterOf
            ((sortedAlbumDirsOf (albumEntries fsRead files)).map
              (buildSection fsRead (albumsMap files)))) := by
  have key : ∀ o : List Nat, o.Perm (List.range (albumDirs files).length) →
      entriesOfSchedule fsRead files o = albumEntries fsRead files := by
    intro o ho
    unfold entriesOfSchedule albumEntries
    rw [runSchedule_eq _ _ ho, filterMap_id_map_some]
  constructor
  · intro today o1 o2 h1 h2
    constructor
    · unfold pageOfSched
      rw [key o1 h1, key o2 h2]
    · unfold pageOfSched pageOf
      rw [key o1 h1]
  · intro today
    rfl

/-- Concrete check of C9: two opposite completion orders of a
two-album gallery produce identical output. -/
theorem C9_determinism_witness :
    pageOfSched (fun _ => none)
      [str "source/images/a/x.png", str "source/images/b/y.png"]
      (str "2026-10-12") [0, 1]
    = pageOfSched (fun _ => none)
      [str "source/images/a/x.png", str "source/images/b/y.png"]
      (str "2026-10-12") [1, 0] := by
  have h1 : sortedFiles [str "source/images/a/x.png", str "source/images/b/y.png"]
      = [str "source/images/a/x.png", str "source/images/b/y.png"] := by
    unfold sortedFiles
    exact fileSort_eq (by decide) (by decide) (by decide)
  have hn : (albumDirs [str "source/images/a/x.png",
      str "source/images/b/y.png"]).length = 2 := by
    unfold albumDirs albumsMap
    rw [h1]
    decide
  exact ((C9_determinism (fun _ => none)
      [str "source/images/a/x.png", str "source/images/b/y.png"]).1
    (str "2026-10-12") [0, 1] [1, 0]
    (by rw [hn]; decide) (by rw [hn]; decide)).1

/-- Backslash-to-slash mapping and the dropped `source/` never touch an
ampersand, so a raw `&` of the path survives into the site URL. -/
theorem amp_mem_toSiteUrl {p : Str} (h : '&' ∈ p) : '&' ∈ toSiteUrl p := by
  unfold toSiteUrl
  have hmap : '&' ∈ p.map (fun c => if c = '\\' then '/' else c) :=
    List.mem_map.mpr ⟨'&', h, by decide⟩
  apply List.mem_cons.mpr
  right
  by_cases hc : startsWithS (str "source/")
      (p.map (fun c => if c = '\\' then '/' else c)) = true
  · rw [if_pos hc]
    have htake : (p.map (fun c => if c = '\\' then '/' else c)).take
        (str "source/").length = str "source/" := by
      simpa [startsWithS] using hc
    rw [show (str "source/").length = 7 from rfl] at htake
    have hsplit := List.take_append_drop 7
      (p.map (fun c => if c = '\\' then '/' else c))
    rw [← hsplit] at hmap
    rcases List.mem_append.mp hmap with hm | hm
    · rw [htake] at hm
      exact absurd hm (by decide)
    · exact hm
  · rw [if_neg hc]
    exact hmap

/-- C10: the site URL is spliced verbatim into the `href` and `src`
attributes of every card, with no HTML escaping: an ampersand of the
path reappears raw in the URL, and concretely so do `&` and `"`. -/
theorem C10_raw_url :
    (∀ p : Str,
      occursIn (str "href=\"" ++ (toSiteUrl p ++ str "\"")) (cardHtml p)
      ∧ occursIn (str "src=\"" ++ (toSiteUrl p ++ str "\"")) (cardHtml p))
    ∧ (∀ p : Str, '&' ∈ p → '&' ∈ toSiteUrl p)
    ∧ ('&' ∈ toSiteUrl (str "source/images/a&b.png")
      ∧ '"' ∈ toSiteUrl (str "source/images/a\"b.png")
      ∧ occursIn
          (str "href=\"" ++ (toSiteUrl (str "source/images/a&b.png") ++ str "\""))
          (cardHtml (str "source/images/a&b.png"))) := by
  have hhref : ∀ p : Str,
      occursIn (str "href=\"" ++ (toSiteUrl p ++ str "\"")) (cardHtml p) := by
    intro p
    have hA : str "  <a class=\"gallery-link\" href=\""
        = str "  <a class=\"gallery-link\" " ++ str "href=\"" := by decide
    have hB : str "\" target=\"_blank\" rel=\"noopener\">"
        = str "\"" ++ str " target=\"_blank\" rel=\"noopener\">" := by decide
    have hline : occursIn (str "href=\"" ++ (toSiteUrl p ++ str "\""))
        (cardLine2 (toSiteUrl p)) := by
      refine ⟨str "  <a class=\"gallery-link\" ",
        str " target=\"_blank\" rel=\"noopener\">", ?_⟩
      unfold cardLine2
      rw [hA, hB]
      simp [List.append_assoc]
    have hlift : occursIn (cardLine2 (toSiteUrl p)) (cardHtml p) := by
      refine ⟨cardLine1 ++ ['\n'],
        '\n' :: (cardLine3 (toSiteUrl p) (escapeHtml (parseName p)) ++
          '\n' :: (cardLine4 ++ '\n' :: cardLine5)), ?_⟩
      simp [cardHtml, List.append_assoc]
    exact occursIn_trans hline hlift
  refine ⟨?_, fun p => amp_mem_toSiteUrl, ?_⟩
  · intro p
    refine ⟨hhref p, ?_⟩
    have hA : str "    <img src=\"" = str "    <img " ++ str "src=\"" := by decide
    have hB : str "\" alt=\"" = str "\"" ++ str " alt=\"" := by decide
    have hline : occursIn (str "src=\"" ++ (toSiteUrl p ++ str "\""))
        (cardLine3 (toSiteUrl p) (escapeHtml (parseName p))) := by
      refine ⟨str "    <img ",
        str " alt=\"" ++ (escapeHtml (parseName p) ++ str "\">"), ?_⟩
      unfold cardLine3
      rw [hA, hB]
      simp [List.append_assoc]
    have hlift : occursIn (cardLine3 (toSiteUrl p) (escapeHtml (parseName p)))
        (cardHtml p) := by
      refine ⟨cardLine1 ++ ('\n' :: (cardLine2 (toSiteUrl p) ++ ['\n'])),
        '\n' :: (cardLine4 ++ '\n' :: cardLine5), ?_⟩
      simp [cardHtml, List.append_assoc]
    exact occursIn_trans hline hlift
  · exact ⟨by decide, by decide, hhref (str "source/images/a&b.png")⟩

/-- Concrete check of C10: the ampersand of a path reaches the URL. -/
theorem C10_raw_url_witness :
    '&' ∈ toSiteUrl (str "source/images/x&y.png") :=
  C10_raw_url.2.1 (str "source/images/x&y.png") (by decide)
